import Mathlib

/-!
Verification of the devassist agent framework core: the short-term memory
store (capacity / TTL / LRU eviction), the ReactAgent execution loop, the
ToolAgent router and tool dispatch, the HybridAgent complexity gate, and the
LongTermMemory index maintenance.

Python dictionaries are modelled as insertion-ordered association lists
(`List (String × α)`) whose keys are unique, matching CPython dict semantics:
assignment to an existing key replaces in place, assignment to a new key
appends, deletion removes the key.  Clock readings (`time.time()`) are
modelled by an injectable integer timestamp passed explicitly to each
operation.  Logging calls and the `BaseAgent`/`BaseMemory` bookkeeping
(`update_state`, `log_action`) have no effect on any value or state the
claims mention and are elided.
-/

namespace DevAssist

/-- First-match lookup in an association list, i.e. Python `d.get(k)` /
`d[k]` on a dict with unique keys. -/
def dlookup [DecidableEq κ] (l : List (κ × α)) (k : κ) : Option α :=
  match l with
  | [] => none
  | (k', v) :: rest => if k' = k then some v else dlookup rest k

/-- Python `k in d`. -/
def dhas [DecidableEq κ] (l : List (κ × α)) (k : κ) : Bool :=
  (dlookup l k).isSome

/-- The key sequence of a dict. -/
def dkeys (l : List (κ × α)) : List κ :=
  l.map Prod.fst

/-- Python `d[k] = v`: replace in place if the key exists, append otherwise. -/
def dset [DecidableEq κ] (l : List (κ × α)) (k : κ) (v : α) : List (κ × α) :=
  if dhas l k then l.map (fun p => if p.1 = k then (k, v) else p)
  else l ++ [(k, v)]

/-- Python `del d[k]` (on a unique-key dict this removes every pair whose
key is `k`). -/
def ddel [DecidableEq κ] (l : List (κ × α)) (k : κ) : List (κ × α) :=
  l.filter (fun p => p.1 ≠ k)

/-- A JSON-like Python value: the subset of Python values the modelled code
stores in observation dictionaries, tool results, memory items and queries. -/
inductive PyVal where
  | str (s : String)
  | bool (b : Bool)
  | int (n : Int)
  | list (xs : List PyVal)
  | dict (fs : List (String × PyVal))
deriving Repr

/-- Python truthiness of a value (`if v:`). -/
def pyTruthy : PyVal → Bool
  | .str s => s ≠ ""
  | .bool b => b
  | .int n => n ≠ 0
  | .list xs => !xs.isEmpty
  | .dict fs => !fs.isEmpty

mutual

/-- Structural equality of Python values (`==` / `!=`). -/
def pyValBeq : PyVal → PyVal → Bool
  | .str a, .str b => a == b
  | .bool a, .bool b => a == b
  | .int a, .int b => a == b
  | .list as, .list bs => pyListBeq as bs
  | .dict as, .dict bs => pyFieldsBeq as bs
  | _, _ => false

/-- Elementwise equality of Python lists. -/
def pyListBeq : List PyVal → List PyVal → Bool
  | [], [] => true
  | a :: as, b :: bs => pyValBeq a b && pyListBeq as bs
  | _, _ => false

/-- Pairwise equality of dict entry lists. -/
def pyFieldsBeq : List (String × PyVal) → List (String × PyVal) → Bool
  | [], [] => true
  | (k1, v1) :: as, (k2, v2) :: bs => k1 == k2 && pyValBeq v1 v2 && pyFieldsBeq as bs
  | _, _ => false

end

theorem pyValBeq_iff : ∀ (a b : PyVal), pyValBeq a b = true ↔ a = b := by
  have H : ∀ n (a b : PyVal), sizeOf a ≤ n → (pyValBeq a b = true ↔ a = b) := by
    intro n
    induction n with
    | zero => intro a b h; cases a <;> simp at h
    | succ n ih =>
      intro a b h
      cases a with
      | str s => cases b <;> simp [pyValBeq]
      | bool x => cases b <;> simp [pyValBeq]
      | int x => cases b <;> simp [pyValBeq]
      | list xs =>
        cases b with
        | list ys =>
          simp only [pyValBeq, PyVal.list.injEq]
          have hsz : sizeOf xs ≤ n := by simp at h; omega
          clear h
          induction xs generalizing ys with
          | nil => cases ys <;> simp [pyListBeq]
          | cons x xs ihl =>
            cases ys with
            | nil => simp [pyListBeq]
            | cons y ys =>
              simp only [pyListBeq, Bool.and_eq_true, List.cons.injEq]
              have h1 : sizeOf x ≤ n := by simp at hsz ⊢; omega
              have h2 : sizeOf xs ≤ n := by simp at hsz ⊢; omega
              have e1 := ih x y h1
              have e2 := ihl ys h2
              tauto
        | str s => simp [pyValBeq]
        | bool x => simp [pyValBeq]
        | int x => simp [pyValBeq]
        | dict fs => simp [pyValBeq]
      | dict xs =>
        cases b with
        | dict ys =>
          simp only [pyValBeq, PyVal.dict.injEq]
          have hsz : sizeOf xs ≤ n := by simp at h; omega
          clear h
          induction xs generalizing ys with
          | nil => cases ys <;> simp [pyFieldsBeq]
          | cons x xs ihl =>
            cases ys with
            | nil => simp [pyFieldsBeq]
            | cons y ys =>
              obtain ⟨k1, v1⟩ := x
              obtain ⟨k2, v2⟩ := y
              simp only [pyFieldsBeq, Bool.and_eq_true, List.cons.injEq, Prod.mk.injEq,
                beq_iff_eq]
              have h1 : sizeOf v1 ≤ n := by simp at hsz ⊢; omega
              have h2 : sizeOf xs ≤ n := by simp at hsz ⊢; omega
              have e1 := ih v1 v2 h1
              have e2 := ihl ys h2
              tauto
        | str s => simp [pyValBeq]
        | bool x => simp [pyValBeq]
        | int x => simp [pyValBeq]
        | list x => simp [pyValBeq]
  intro a b
  exact H (sizeOf a) a b le_rfl

instance : DecidableEq PyVal := fun a b => decidable_of_iff _ (pyValBeq_iff a b)

/-! ## Short-term memory (`devassist/core/memory/short_term.py`)

State of a `ShortTermMemory` instance.  The payload type of stored items is
an arbitrary `α` (the Python code never inspects the stored dict apart from
the diagnostic `item.get("name", ...)` in a log line).  The `lru_queue`
`heapq` heap is modelled by the list of its elements; `heapq.heappush` is an
insertion and `heapq.heappop` removes the least element in the tuple order
`(time, identifier)` — the only heap operations the code performs. -/

structure STM (α : Type) where
  capacity : Nat
  ttl : Int
  items : List (String × α)
  access_times : List (String × Int)
  creation_times : List (String × Int)
  lru_queue : List (Int × String)
deriving Repr, DecidableEq

namespace STM

variable {α : Type}

/-- Tuple comparison `(t1, id1) <= (t2, id2)` as Python orders heap keys. -/
def pairLe (x y : Int × String) : Bool :=
  x.1 < y.1 ∨ (x.1 = y.1 ∧ x.2 ≤ y.2)

/-- The least of `x` and the elements of a list, biased towards earlier
positions on ties. -/
def heapMinAux (x : Int × String) : List (Int × String) → Int × String
  | [] => x
  | y :: ys => if pairLe x y then heapMinAux x ys else heapMinAux y ys

/-- The least element of the heap (what `heapq.heappop` returns). -/
def heapMin : List (Int × String) → Option (Int × String)
  | [] => none
  | x :: xs => some (heapMinAux x xs)

/-- `heapq.heappop`: remove and return the least element. -/
def heapPop (q : List (Int × String)) : Option ((Int × String) × List (Int × String)) :=
  match heapMin q with
  | none => none
  | some m => some (m, q.erase m)

/-- A fresh ShortTermMemory (`__init__`). -/
def init (capacity : Nat) (ttl : Int) : STM α :=
  { capacity := capacity, ttl := ttl, items := [], access_times := [],
    creation_times := [], lru_queue := [] }

/-- `ShortTermMemory.delete`: remove the identifier from the three maps and
rebuild the LRU queue keeping only entries whose id is still stored. -/
def delete (s : STM α) (identifier : String) : Bool × STM α :=
  if dhas s.items identifier then
    let items' := ddel s.items identifier
    (true,
      { s with
        items := items'
        access_times := ddel s.access_times identifier
        creation_times := ddel s.creation_times identifier
        lru_queue := s.lru_queue.filter (fun p => dhas items' p.2) })
  else
    (false, s)

/-- `ShortTermMemory._prune_expired`: collect the identifiers whose creation
time lies more than `ttl` in the past, then delete each of them. -/
def pruneExpired (s : STM α) (now : Int) : STM α :=
  let expired := (s.creation_times.filter (fun p => now - p.2 > s.ttl)).map Prod.fst
  expired.foldl (fun st identifier => (st.delete identifier).2) s

/-- The `while self.lru_queue:` loop of `_evict_lru`: pop heap entries until
one names a live item; stale entries (ids already deleted) are skipped; the
first live one is deleted and the loop stops.  Each iteration pops one heap
entry, so any fuel beyond the queue length only makes the recursion
structural and is never exhausted. -/
def evictLoop : Nat → STM α → STM α
  | 0, s => s
  | fuel + 1, s =>
    match heapPop s.lru_queue with
    | none => s
    | some (m, q') =>
      let s' := { s with lru_queue := q' }
      if dhas s'.items m.2 then (s'.delete m.2).2
      else evictLoop fuel s'

/-- `ShortTermMemory._evict_lru`. -/
def evictLRU (s : STM α) : STM α :=
  evictLoop (s.lru_queue.length + 1) s

/-- `ShortTermMemory.add`: prune expired items, store the item under the
(injected) fresh identifier, record access/creation time, push a heap entry,
and if the store now exceeds `capacity` evict one least-recently-used item.
The fresh uuid4 identifier and the `time.time()` reading are parameters. -/
def add (s : STM α) (identifier : String) (now : Int) (item : α) : STM α :=
  let s := s.pruneExpired now
  let s := { s with
    items := dset s.items identifier item
    access_times := dset s.access_times identifier now
    creation_times := dset s.creation_times identifier now
    lru_queue := s.lru_queue ++ [(now, identifier)] }
  if s.items.length > s.capacity then s.evictLRU else s

/-- `ShortTermMemory.get`: prune expired items, then return the item (also
refreshing its access time) or `none`. -/
def get (s : STM α) (identifier : String) (now : Int) : Option α × STM α :=
  let s := s.pruneExpired now
  match dlookup s.items identifier with
  | none => (none, s)
  | some v => (some v, { s with access_times := dset s.access_times identifier now })

/-- The structural invariant every reachable `ShortTermMemory` state
satisfies: stored ids are unique, and every live id has at least one entry
in the LRU heap (so eviction can never come up empty while items remain). -/
def wf (s : STM α) : Prop :=
  (dkeys s.items).Nodup ∧ ∀ id ∈ dkeys s.items, id ∈ s.lru_queue.map Prod.snd

instance (s : STM α) : Decidable (wf s) := by unfold wf; infer_instance

/-- All states a fresh store passes through under a sequence of `add` calls
(each op carries the injected fresh uuid, the clock reading and the item). -/
def traceAdds (capacity : Nat) (ttl : Int) (ops : List (String × Int × α)) : List (STM α) :=
  ops.scanl (fun s op => s.add op.1 op.2.1 op.2.2) (init capacity ttl)

end STM

/-! ## React agent loop (`devassist/core/agent/react_agent.py`)

The thought–action–observation loop of `ReactAgent.execute`.  The loop state
an instance carries (`current_iteration`) and the per-call context dict are
made explicit; `max_iterations` is an `Int` as any Python integer can be
passed. -/

/-- The context dict `execute` threads through the loop. -/
structure AgentContext where
  task : String
  thoughts : List String
  actions : List (String × List (String × PyVal))
  observations : List PyVal
deriving Repr

/-- The result dict `ReactAgent.execute` returns. -/
structure ReactResult where
  task : String
  answer : String
  iterations : Int
  context : AgentContext
deriving Repr

/-- Python `str()` of a value.  Container renderings are abbreviated; the
only call site (`_generate_final_answer`) applies it to the dead branch
guarded by the constant test `"status" == "success"`. -/
def pyStr : PyVal → String
  | .str s => s
  | .bool b => if b then "True" else "False"
  | .int n => toString n
  | .list _ => "[...]"
  | .dict _ => "\x7b...\x7d"

/-- `ReactAgent._generate_thought` (the placeholder default). -/
def generateThought (task : String) (currentIteration : Int) : String :=
  "Thinking about how to " ++ task ++ " (iteration " ++ toString currentIteration ++ ")"

/-- `ReactAgent._decide_action` (the placeholder default). -/
def reactDecideAction (ctx : AgentContext) : String × List (String × PyVal) :=
  ("dummy_action", [("query", .str ("Placeholder action for " ++ ctx.task))])

/-- `ReactAgent._execute_action` (the base-class default). -/
def reactExecuteAction (actionName : String) (_input : List (String × PyVal)) : PyVal :=
  .dict [("status", .str "error"), ("error", .str ("Unknown action or tool: " ++ actionName))]

/-- `ReactAgent._should_terminate` (the default predicate). -/
def reactShouldTerminate (currentIteration maxIterations : Int) : Bool :=
  currentIteration ≥ maxIterations - 1

/-- The generic message of `ReactAgent._generate_final_answer`. -/
def genericCompletionMsg : String :=
  "Task execution completed. Please check the detailed results for more information."

/-- The per-observation test of `ReactAgent._generate_final_answer`: an
observation yields an answer when it is a dict with a `result` entry that is
itself a dict and the test `"status" == "success"` holds.  That test — taken
verbatim from line 174 of the source — compares the two string literals. -/
def observationAnswer (observation : PyVal) : Option String :=
  match observation with
  | .dict fs =>
    match dlookup fs "result" with
    | some result =>
      match result with
      | .dict rfs =>
        if ("status" : String) = "success" then
          some (pyStr ((dlookup rfs "result").getD (.str "Task completed successfully")))
        else none
      | _ => none
    | none => none
  | _ => none

/-- `ReactAgent._generate_final_answer`: return the first observation's
answer, or the generic completion message when no observation yields one. -/
def generateFinalAnswer (observations : List PyVal) : String :=
  match observations.findSome? observationAnswer with
  | some a => a
  | none => genericCompletionMsg

/-- The overridable hooks of the loop (the methods `ToolAgent` replaces). -/
structure AgentHooks where
  decideAction : AgentContext → String × List (String × PyVal)
  executeAction : String → List (String × PyVal) → PyVal
  shouldTerminate : Int → Int → AgentContext → Bool

/-- The hooks of a plain `ReactAgent` (all defaults). -/
def reactHooks : AgentHooks :=
  { decideAction := reactDecideAction
    executeAction := reactExecuteAction
    shouldTerminate := fun ci maxIt _ => reactShouldTerminate ci maxIt }

/-- The `while self.current_iteration < self.max_iterations` loop body of
`ReactAgent.execute`: generate a thought, decide an action, execute it,
append all three to the context, then either break on the termination
predicate or increment `current_iteration` and continue.  Returns the final
`current_iteration` together with the final context.  `current_iteration`
strictly increases while below `max_iterations`, so any fuel beyond
`max_iterations - current_iteration` only makes the recursion structural
and is never exhausted. -/
def loopGo (hooks : AgentHooks) (maxIterations : Int) :
    Nat → Int → AgentContext → Int × AgentContext
  | 0, ci, ctx => (ci, ctx)
  | fuel + 1, ci, ctx =>
    if ci < maxIterations then
      let thought := generateThought ctx.task ci
      let ctx1 := { ctx with thoughts := ctx.thoughts ++ [thought] }
      let (actionName, actionInput) := hooks.decideAction ctx1
      let ctx2 := { ctx1 with actions := ctx1.actions ++ [(actionName, actionInput)] }
      let observation := hooks.executeAction actionName actionInput
      let ctx3 := { ctx2 with observations := ctx2.observations ++ [observation] }
      if hooks.shouldTerminate ci maxIterations ctx3 then (ci, ctx3)
      else loopGo hooks maxIterations fuel (ci + 1) ctx3
    else (ci, ctx)

/-- `ReactAgent.execute`: run the loop from `current_iteration = 0` on a
fresh context, then build the result dict, whose `iterations` field is the
final `current_iteration + 1`. -/
def executeLoop (hooks : AgentHooks) (maxIterations : Int) (task : String) : ReactResult :=
  let ctx0 : AgentContext := { task := task, thoughts := [], actions := [], observations := [] }
  let (ciF, ctxF) := loopGo hooks maxIterations (maxIterations.toNat + 1) 0 ctx0
  { task := task
    answer := generateFinalAnswer ctxF.observations
    iterations := ciF + 1
    context := ctxF }

/-- `execute` of a `ReactAgent` with the default hooks. -/
def reactExecute (maxIterations : Int) (task : String) : ReactResult :=
  executeLoop reactHooks maxIterations task

/-! ## Regular expressions

The router (`ToolAgent._decide_action`) and the complexity scorer
(`HybridAgent._assess_complexity`) use `re.search` / `re.findall` on a fixed
set of patterns.  The constructs those patterns use — literals, character
classes, `X*`/`X+` over a class, optional non-capturing groups, alternation,
one capturing group `(.+)` or lazy `(.+?)`, and `$` — are embedded as a
small backtracking matcher with Python's greedy/lazy preference order and
leftmost-search semantics.  `$` is modelled as end of input and `.` via a
character predicate.  A fuel argument bounds the backtracking depth; one
unit is spent per step, and any run over an input of length `n` with the
embedded patterns takes fewer than `(n+1)*64+64` steps (each step either
consumes an input character or shrinks the pending pattern list). -/

inductive RE where
  | lit (cs : List Char)
  | cls (p : Char → Bool)
  | star (p : Char → Bool)
  | plus (p : Char → Bool)
  | opt (rs : List RE)
  | alt (cases : List (List RE))
  | eos
  | grpPlus (p : Char → Bool)
  | grpAcc (p : Char → Bool) (acc : List Char)
  | grpLazyPlus (p : Char → Bool)
  | grpLazyAcc (p : Char → Bool) (acc : List Char)

/-- Match a pattern list against a prefix of `s`, calling the continuation
`k` with the captured group (if any) and the unconsumed suffix; `none`
signals failure and triggers backtracking through `<|>`.  Greedy operators
try the longer consumption first, the lazy group the shorter. -/
def mseq : Nat → List RE → Option (List Char) → List Char →
    (Option (List Char) → List Char → Option (Option (List Char) × List Char)) →
    Option (Option (List Char) × List Char)
  | 0, _, _, _, _ => none
  | _ + 1, [], cap, s, k => k cap s
  | fuel + 1, r :: rest, cap, s, k =>
    match r with
    | .lit cs => if cs.isPrefixOf s then mseq fuel rest cap (s.drop cs.length) k else none
    | .cls p =>
      match s with
      | c :: s' => if p c then mseq fuel rest cap s' k else none
      | [] => none
    | .star p =>
      (match s with
       | c :: s' => if p c then mseq fuel (.star p :: rest) cap s' k else none
       | [] => none) <|> mseq fuel rest cap s k
    | .plus p =>
      match s with
      | c :: s' => if p c then mseq fuel (.star p :: rest) cap s' k else none
      | [] => none
    | .opt rs => mseq fuel (rs ++ rest) cap s k <|> mseq fuel rest cap s k
    | .alt cases =>
      cases.foldr (fun cs acc => mseq fuel (cs ++ rest) cap s k <|> acc) none
    | .eos => if s.isEmpty then mseq fuel rest cap [] k else none
    | .grpPlus p =>
      match s with
      | c :: s' => if p c then mseq fuel (.grpAcc p [c] :: rest) cap s' k else none
      | [] => none
    | .grpAcc p acc =>
      (match s with
       | c :: s' => if p c then mseq fuel (.grpAcc p (acc ++ [c]) :: rest) cap s' k else none
       | [] => none) <|> mseq fuel rest (some acc) s k
    | .grpLazyPlus p =>
      match s with
      | c :: s' => if p c then mseq fuel (.grpLazyAcc p [c] :: rest) cap s' k else none
      | [] => none
    | .grpLazyAcc p acc =>
      mseq fuel rest (some acc) s k <|>
      (match s with
       | c :: s' => if p c then mseq fuel (.grpLazyAcc p (acc ++ [c]) :: rest) cap s' k else none
       | [] => none)

/-- Fuel sufficient for any search over `s` with the embedded patterns. -/
def reFuel (s : List Char) : Nat := (s.length + 1) * 64 + 64

/-- Try a match starting exactly at the head of `s`. -/
def reSearchAt (rs : List RE) (s : List Char) : Option (Option (List Char) × List Char) :=
  mseq (reFuel s) rs none s (fun cap rest => some (cap, rest))

/-- `re.search`: the leftmost starting position admitting a match wins. -/
def reSearch (rs : List RE) : List Char → Option (Option (List Char) × List Char)
  | [] => reSearchAt rs []
  | c :: s' => reSearchAt rs (c :: s') <|> reSearch rs s'

/-- `re.search(...).group(1)`: the capture of the leftmost match.  Every
embedded pattern contains exactly one mandatory capturing group, so a match
always produces a capture. -/
def reGroup (rs : List RE) (s : List Char) : Option (List Char) :=
  match reSearch rs s with
  | some (some g, _) => some g
  | _ => none

/-- `len(re.findall(...))`: count non-overlapping matches left to right,
resuming after the end of each match.  Every embedded pattern consumes at
least one character per match, so fuel `s.length + 1` never runs out. -/
def findallCount (rs : List RE) : Nat → List Char → Nat
  | 0, _ => 0
  | fuel + 1, s =>
    match reSearch rs s with
    | none => 0
    | some (_, rest) => 1 + findallCount rs fuel rest

/-- Python `\s` on ASCII input (`str.isspace` likewise). -/
def isPyWS (c : Char) : Bool :=
  c = ' ' ∨ c = '\t' ∨ c = '\n' ∨ c = '\r' ∨ c = '\x0B' ∨ c = '\x0C'

/-- `.` without `re.DOTALL`: any character but a newline. -/
def isDotNoNL (c : Char) : Bool := c ≠ '\n'

/-- `.` under `re.DOTALL`: any character. -/
def isAnyChar (_ : Char) : Bool := true

/-- The character class `['"]`. -/
def isQuote (c : Char) : Bool := c = '\'' ∨ c = '"'

/-- Python `str.lower()` (ASCII). -/
def pyLower (s : String) : List Char := s.data.map Char.toLower

/-- Python `str.strip()`: drop leading and trailing whitespace. -/
def pyStripList (cs : List Char) : List Char :=
  ((cs.dropWhile isPyWS).reverse.dropWhile isPyWS).reverse

/-- The word-scanning recursion behind Python `str.split()` with no
separator: each step consumes at least one character, so any fuel beyond
the input length only makes the recursion structural. -/
def pyWordsGo : Nat → List Char → List (List Char)
  | 0, _ => []
  | _ + 1, [] => []
  | fuel + 1, c :: cs =>
    if isPyWS c then pyWordsGo fuel cs
    else (c :: cs.takeWhile (fun d => !isPyWS d)) ::
      pyWordsGo fuel (cs.dropWhile (fun d => !isPyWS d))

/-- Python `str.split()` with no separator: the maximal non-whitespace runs. -/
def pyWords (cs : List Char) : List (List Char) :=
  pyWordsGo (cs.length + 1) cs

/-- Python `str.capitalize()`: first character upper-cased, rest lower-cased. -/
def pyCapitalize : List Char → List Char
  | [] => []
  | c :: rest => c.toUpper :: rest.map Char.toLower

/-! ## Task router (`ToolAgent._decide_action`)

The ordered pattern rules, matched against the lower-cased task text.  Each
rule fires only when its regex matches and the corresponding tool name is in
the agent's loaded-tool dict. -/

/-- `r'calculate\s+(.+)$'`. -/
def calcPat : List RE := [.lit "calculate".data, .plus isPyWS, .grpPlus isDotNoNL, .eos]

/-- The three search patterns, in source order. -/
def searchPats : List (List RE) :=
  [ [.lit "search".data, .opt [.plus isPyWS, .lit "for".data], .plus isPyWS, .grpPlus isDotNoNL],
    [.lit "find".data,
      .opt [.plus isPyWS, .lit "information".data, .opt [.plus isPyWS, .lit "about".data]],
      .plus isPyWS, .grpPlus isDotNoNL],
    [.lit "look".data, .plus isPyWS, .lit "up".data, .plus isPyWS, .grpPlus isDotNoNL] ]

/-- The six text-processing patterns with their operation names, in the
insertion order of the source's dict literal. -/
def textPats : List (List RE × String) :=
  [ ([.lit "count".data, .plus isPyWS, .lit "characters".data, .plus isPyWS, .lit "in".data,
      .plus isPyWS, .cls isQuote, .grpPlus isDotNoNL, .cls isQuote], "count"),
    ([.lit "count".data, .plus isPyWS, .lit "words".data, .plus isPyWS, .lit "in".data,
      .plus isPyWS, .cls isQuote, .grpPlus isDotNoNL, .cls isQuote], "wordcount"),
    ([.lit "reverse".data, .plus isPyWS, .cls isQuote, .grpPlus isDotNoNL, .cls isQuote],
      "reverse"),
    ([.lit "uppercase".data, .plus isPyWS, .cls isQuote, .grpPlus isDotNoNL, .cls isQuote],
      "uppercase"),
    ([.lit "lowercase".data, .plus isPyWS, .cls isQuote, .grpPlus isDotNoNL, .cls isQuote],
      "lowercase"),
    ([.lit "capitalize".data, .plus isPyWS, .cls isQuote, .grpPlus isDotNoNL, .cls isQuote],
      "capitalize") ]

/-- The three code-execution patterns (`re.IGNORECASE | re.DOTALL`, lazy
group). -/
def codePats : List (List RE) :=
  [ [.lit "run".data, .plus isPyWS, .lit "code".data, .plus isPyWS, .lit "```".data,
      .opt [.lit "python".data], .star isPyWS, .grpLazyPlus isAnyChar, .lit "```".data],
    [.lit "execute".data, .plus isPyWS, .lit "```".data,
      .opt [.lit "python".data], .star isPyWS, .grpLazyPlus isAnyChar, .lit "```".data],
    [.lit "evaluate".data, .plus isPyWS, .lit "```".data,
      .opt [.lit "python".data], .star isPyWS, .grpLazyPlus isAnyChar, .lit "```".data] ]

/-- The three API-endpoint patterns. -/
def apiPats : List (List RE) :=
  [ [.lit "create".data, .plus isPyWS, .opt [.lit "a".data, .opt [.lit "n".data], .plus isPyWS],
      .lit "api".data, .plus isPyWS, .lit "endpoint".data, .plus isPyWS,
      .opt [.lit "for".data, .plus isPyWS], .grpPlus isDotNoNL],
    [.lit "generate".data, .plus isPyWS, .opt [.lit "a".data, .opt [.lit "n".data], .plus isPyWS],
      .lit "api".data, .plus isPyWS, .opt [.lit "for".data, .plus isPyWS], .grpPlus isDotNoNL],
    [.lit "implement".data, .plus isPyWS, .opt [.lit "a".data, .opt [.lit "n".data], .plus isPyWS],
      .lit "api".data, .plus isPyWS, .opt [.lit "for".data, .plus isPyWS], .grpPlus isDotNoNL] ]

/-- The three React-component patterns. -/
def reactPats : List (List RE) :=
  [ [.lit "create".data, .plus isPyWS, .opt [.lit "a".data, .plus isPyWS], .lit "react".data,
      .plus isPyWS, .lit "component".data, .plus isPyWS,
      .opt [.lit "for".data, .plus isPyWS], .grpPlus isDotNoNL],
    [.lit "generate".data, .plus isPyWS, .opt [.lit "a".data, .plus isPyWS], .lit "react".data,
      .plus isPyWS, .opt [.lit "component".data, .plus isPyWS],
      .opt [.lit "for".data, .plus isPyWS], .grpPlus isDotNoNL],
    [.lit "implement".data, .plus isPyWS, .opt [.lit "a".data, .plus isPyWS], .lit "react".data,
      .plus isPyWS, .opt [.lit "component".data, .plus isPyWS],
      .opt [.lit "for".data, .plus isPyWS], .grpPlus isDotNoNL] ]

/-- First rule of `_decide_action`: calculator tasks. -/
def tryCalc (tools : List String) (t : List Char) : Option (String × List (String × PyVal)) :=
  match reGroup calcPat t with
  | some e =>
    if "calculator" ∈ tools then
      some ("calculator", [("expression", .str (String.mk (pyStripList e)))])
    else none
  | none => none

/-- Search rules: first matching pattern wins, guarded by the `search` tool. -/
def trySearch (tools : List String) (t : List Char) : Option (String × List (String × PyVal)) :=
  searchPats.findSome? fun pat =>
    match reGroup pat t with
    | some q => if "search" ∈ tools then some ("search", [("query", .str (String.mk q))]) else none
    | none => none

/-- Text-processing rules. -/
def tryText (tools : List String) (t : List Char) : Option (String × List (String × PyVal)) :=
  textPats.findSome? fun pr =>
    match reGroup pr.1 t with
    | some txt =>
      if "text" ∈ tools then
        some ("text", [("text", .str (String.mk txt)), ("operation", .str pr.2)])
      else none
    | none => none

/-- Code-execution rules. -/
def tryCode (tools : List String) (t : List Char) : Option (String × List (String × PyVal)) :=
  codePats.findSome? fun pat =>
    match reGroup pat t with
    | some code =>
      if "code" ∈ tools then some ("code", [("code", .str (String.mk (pyStripList code)))])
      else none
    | none => none

/-- API-endpoint rules. -/
def tryApi (tools : List String) (t : List Char) : Option (String × List (String × PyVal)) :=
  apiPats.findSome? fun pat =>
    match reGroup pat t with
    | some nm =>
      if "api_endpoint" ∈ tools then
        some ("api_endpoint",
          [("endpoint_name", .str (String.mk (pyStripList nm))),
           ("http_method", .str "GET"), ("framework", .str "express")])
      else none
    | none => none

/-- React-component rules, converting the captured name to PascalCase. -/
def tryReact (tools : List String) (t : List Char) : Option (String × List (String × PyVal)) :=
  reactPats.findSome? fun pat =>
    match reGroup pat t with
    | some nm =>
      if "react_component" ∈ tools then
        some ("react_component",
          [("component_name",
             .str (String.mk (((pyWords (pyStripList nm)).map pyCapitalize).flatten))),
           ("component_type", .str "functional"), ("use_typescript", .bool true)])
      else none
    | none => none

/-- The rule-scanning part of `ToolAgent._decide_action`, on the already
lower-cased task text. -/
def routeMatches (tools : List String) (t : List Char) :
    Option (String × List (String × PyVal)) :=
  tryCalc tools t <|> trySearch tools t <|> tryText tools t <|> tryCode tools t <|>
    tryApi tools t <|> tryReact tools t

/-- `ToolAgent._decide_action` on the lower-cased task text: the first
matching rule, or the fallback dummy action carrying the lower-cased text. -/
def decideActionCore (tools : List String) (t : List Char) : String × List (String × PyVal) :=
  (routeMatches tools t).getD
    ("dummy_action", [("query", .str ("Placeholder action for " ++ String.mk t))])

/-- `ToolAgent._decide_action`: lower-case the task, then scan the rules. -/
def decideAction (tools : List String) (task : String) : String × List (String × PyVal) :=
  decideActionCore tools (pyLower task)

/-! ## Complexity gate (`devassist/core/agent/hybrid_agent.py`)

`HybridAgent._assess_complexity` and the mode dispatch of
`HybridAgent.execute`.  Python floats are modelled as exact rationals; every
weight in the scorer is a multiple of 1/20, so no value in range needs more
precision. -/

/-- The weighted `operations` pattern table of `_assess_complexity`, in
source order.  The patterns' capturing groups only affect what `re.findall`
returns, never how many matches there are, so they are embedded as plain
alternations. -/
def opPatterns : List (List RE × ℚ) :=
  [ ([.alt [[.lit "calculate".data], [.lit "compute".data], [.lit "evaluate".data]]], 1),
    ([.alt [[.lit "search".data], [.lit "find".data], [.lit "look up".data]]], 1),
    ([.alt [[.lit "count".data], [.lit "process".data], [.lit "analyze".data],
        [.lit "transform".data]], .plus isPyWS, .lit "text".data], 1),
    ([.alt [[.lit "run".data, .plus isPyWS, .lit "code".data], [.lit "execute".data]]], 3/2),
    ([.alt [[.lit "compare".data], [.lit "contrast".data], [.lit "evaluate".data]]], 2),
    ([.alt [[.lit "optimize".data], [.lit "improve".data], [.lit "enhance".data]]], 5/2),
    ([.alt [[.lit "and".data], [.lit "then".data], [.lit "after".data], [.lit "before".data]]], 1),
    ([.alt [[.lit "if".data], [.lit "when".data], [.lit "unless".data],
        [.lit "otherwise".data]]], 3/2),
    ([.alt [[.lit "all".data], [.lit "every".data], [.lit "each".data]]], 1),
    ([.alt [[.lit "most".data], [.lit "best".data], [.lit "optimal".data]]], 3/2),
    ([.lit "create".data, .plus isPyWS, .alt [[.lit "api".data], [.lit "endpoint".data],
        [.lit "component".data], [.lit "class".data], [.lit "model".data]]], 2),
    ([.lit "generate".data, .plus isPyWS, .alt [[.lit "api".data], [.lit "endpoint".data],
        [.lit "component".data], [.lit "class".data], [.lit "model".data]]], 2),
    ([.alt [[.lit "design".data], [.lit "architect".data]]], 3),
    ([.alt [[.lit "debug".data], [.lit "troubleshoot".data], [.lit "fix".data]]], 5/2),
    ([.alt [[.lit "full".data, .plus isPyWS, .lit "stack".data], [.lit "end-to-end".data],
        [.lit "complete".data]]], 3),
    ([.alt [[.lit "database".data], [.lit "storage".data], [.lit "persistence".data]]], 2),
    ([.alt [[.lit "authentication".data], [.lit "security".data], [.lit "encryption".data]]], 5/2),
    ([.alt [[.lit "deploy".data], [.lit "release".data], [.lit "publish".data]]], 2),
    ([.alt [[.lit "test".data], [.lit "validate".data], [.lit "verify".data]]], 3/2),
    ([.alt [[.lit "front".data, .opt [.lit "-".data], .lit "end".data],
        [.lit "back".data, .opt [.lit "-".data], .lit "end".data],
        [.lit "ui".data], [.lit "ux".data]]], 3/2) ]

/-- Python substring containment `needle in hay` for strings. -/
def containsSub (hay needle : List Char) : Bool :=
  needle.isPrefixOf hay ||
    (match hay with
     | [] => false
     | _ :: t => containsSub t needle)

/-- The `tool_keywords` table of `_assess_complexity`, in source order. -/
def toolKeywords : List (String × List String) :=
  [ ("calculator", ["calculate", "compute", "evaluate", "math"]),
    ("search", ["search", "find", "look up", "query"]),
    ("text", ["text", "string", "characters", "words"]),
    ("code", ["code", "execute", "run", "python"]),
    ("react_component", ["react", "component", "ui", "frontend"]),
    ("api_endpoint", ["api", "endpoint", "backend", "rest"]),
    ("database_model", ["database", "model", "schema", "orm"]) ]

/-- `HybridAgent._assess_complexity`: weighted pattern-hit counts on the
lower-cased task, plus 1/10 per word, 1/20 per special character (neither
alphanumeric nor whitespace, counted on the original text), plus 3/2 per
tool whose keyword list hits the lower-cased text, capped at 10. -/
def assessComplexity (task : String) : ℚ :=
  let tl := pyLower task
  let patScore := opPatterns.foldl
    (fun acc pr => acc + pr.2 * (findallCount pr.1 (tl.length + 1) tl : ℚ)) 0
  let words := (pyWords task.data).length
  let specials := (task.data.filter (fun c => !c.isAlphanum && !isPyWS c)).length
  let toolsNeeded :=
    (toolKeywords.filter (fun kv => kv.2.any (fun kw => containsSub tl kw.data))).length
  min 10 (patScore + (words : ℚ) * (1/10) + (specials : ℚ) * (1/20) + (toolsNeeded : ℚ) * (3/2))

/-- Which execution path `HybridAgent.execute` takes: `super().execute`
(single-agent) or `_execute_multi_agent`. -/
inductive ExecPath where
  | single
  | multi
deriving DecidableEq, Repr

/-- The mode dispatch of `HybridAgent.execute`: in `auto` mode compare the
complexity score against the threshold (single strictly below, multi at or
above); an explicit `multi` forces the pipeline and anything else runs
single-agent. -/
def hybridChoosePath (threshold : ℚ) (mode : String) (task : String) : ExecPath :=
  if mode = "auto" then
    if assessComplexity task < threshold then .single else .multi
  else if mode = "multi" then .multi
  else .single

/-! ## Tool dispatch (`tool_agent.py` / `tools/base/tool_collection.py`)

A tool's `execute` (and optional `validate_input`) may return a value or
raise; raising is modelled with `Except`.  The reflection-based dynamic
loading (`importlib` in `ToolAgent.load_tool` and `ToolCollection.get_tool`)
is modelled as an oracle from names to optionally a tool — `load_tool`
catches every exception and reports failure, so the oracle returning `none`
covers both "not found" and "raised while loading". -/

structure PyTool where
  validate : Option (List (String × PyVal) → Except String Bool)
  run : List (String × PyVal) → Except String PyVal

/-- An error Result dict `{"status": "error", "error": msg}`. -/
def errObs (msg : String) : List (String × PyVal) :=
  [("status", .str "error"), ("error", .str msg)]

/-- Shared post-processing of a tool invocation: a raise becomes an error
Result; a returned dict that already has a `status` key passes through;
anything else is wrapped in `{"status": "success", "result": ...}`. -/
def wrapToolResult (name : String) (r : Except String PyVal) : List (String × PyVal) :=
  match r with
  | .error e => errObs ("Error executing tool " ++ name ++ ": " ++ e)
  | .ok result =>
    match result with
    | .dict fs => if dhas fs "status" then fs else [("status", .str "success"), ("result", result)]
    | _ => [("status", .str "success"), ("result", result)]

/-- `ToolAgent._execute_action`: run a loaded tool catching exceptions; for
an unknown name first attempt `load_tool` and retry (the retry finds the
freshly loaded tool, embedded directly), else return the unknown-tool error
Result. -/
def executeAction (tools : List (String × PyTool)) (loadTool : String → Option PyTool)
    (name : String) (input : List (String × PyVal)) : List (String × PyVal) :=
  match dlookup tools name with
  | some tool => wrapToolResult name (tool.run input)
  | none =>
    match loadTool name with
    | some tool => wrapToolResult name (tool.run input)
    | none => errObs ("Unknown action or tool: " ++ name)

/-- State of a `ToolCollection`: instantiated tools, registered classes
(whose instantiation may raise), and the dynamic-discovery oracle. -/
structure ToolCollectionState where
  tools : List (String × PyTool)
  tool_classes : List (String × Except String PyTool)
  dynamicLoad : String → Option PyTool

/-- `ToolCollection.get_tool`: instantiated tool first, then a registered
class (instantiation errors are caught, logged and yield `None`), then
dynamic discovery. -/
def getTool (tc : ToolCollectionState) (name : String) : Option PyTool :=
  match dlookup tc.tools name with
  | some tool => some tool
  | none =>
    match dlookup tc.tool_classes name with
    | some (.ok tool) => some tool
    | some (.error _) => none
    | none => tc.dynamicLoad name

/-- `ToolCollection.execute_tool`: resolve the tool (error Result when that
fails), run `validate_input` when present (a raise there is caught by the
same `except` as the execution; a `False` yields the invalid-input error
Result), then execute and post-process. -/
def executeTool (tc : ToolCollectionState) (name : String) (kwargs : List (String × PyVal)) :
    List (String × PyVal) :=
  match getTool tc name with
  | none => errObs ("Tool not found: " ++ name)
  | some tool =>
    match (match tool.validate with
           | some v => v kwargs
           | none => Except.ok true) with
    | .error e => errObs ("Error executing tool " ++ name ++ ": " ++ e)
    | .ok false => errObs ("Invalid input for tool " ++ name)
    | .ok true => wrapToolResult name (tool.run kwargs)

/-! ## Long-term memory (`devassist/core/memory/long_term.py`)

A stored item is the user's field dict plus the reserved `_meta` object
`add` injects; items in the model always carry `_meta` (only `add` creates
them), so the defensive missing-`_meta` branch of `update` is unreachable
and elided.  The file store is the `disk` map (one entry per id); file I/O
errors are outside the modelled behaviour. -/

structure LTMeta where
  id : String
  created_at : Int
  updated_at : Int
  project : PyVal
  category : PyVal
deriving Repr, DecidableEq

structure StoredItem where
  fields : List (String × PyVal)
  meta : LTMeta
deriving Repr, DecidableEq

structure LTM where
  index_in_memory : Bool
  max_items_per_category : Nat
  index : List (String × StoredItem)
  category_index : List (PyVal × List String)
  project_index : List (PyVal × List String)
  disk : List (String × StoredItem)
deriving Repr, DecidableEq

namespace LTM

/-- `LongTermMemory.get`: the in-memory index first when enabled and the id
is indexed, else the file on disk. -/
def get (m : LTM) (identifier : String) : Option StoredItem :=
  if m.index_in_memory ∧ dhas m.index identifier then dlookup m.index identifier
  else dlookup m.disk identifier

/-- The bucket-migration step `update` performs on one secondary index:
remove the first occurrence of the id from the old bucket when that bucket
exists and holds the id (`list.remove`), then append the id to the new
bucket, creating it when absent.  The emptied old bucket is left in place. -/
def migrateBucket (idx : List (PyVal × List String)) (oldKey newKey : PyVal)
    (identifier : String) : List (PyVal × List String) :=
  let idx1 :=
    match dlookup idx oldKey with
    | some ids => if identifier ∈ ids then dset idx oldKey (ids.erase identifier) else idx
    | none => idx
  dset idx1 newKey (((dlookup idx1 newKey).getD []) ++ [identifier])

/-- `LongTermMemory.update`: look the item up; preserve its `_meta` with a
refreshed `updated_at`; save to disk (this happens before the
project/category migration, so the persisted copy keeps the old labels);
when the in-memory index is enabled, compare `item.get("project")` /
`item.get("category")` against the stored labels and migrate the secondary
index buckets for whichever changed, updating `_meta` accordingly; finally
overwrite the main index entry. -/
def update (m : LTM) (identifier : String) (item : List (String × PyVal)) (now : Int) :
    Bool × LTM :=
  match m.get identifier with
  | none => (false, m)
  | some existing =>
    let meta1 := { existing.meta with updated_at := now }
    let disk' := dset m.disk identifier { fields := item, meta := meta1 }
    if m.index_in_memory then
      let oldProject := existing.meta.project
      let oldCategory := existing.meta.category
      let newProject := (dlookup item "project").getD oldProject
      let newCategory := (dlookup item "category").getD oldCategory
      let meta2 := if newProject ≠ oldProject then { meta1 with project := newProject } else meta1
      let projectIndex' :=
        if newProject ≠ oldProject then
          migrateBucket m.project_index oldProject newProject identifier
        else m.project_index
      let meta3 :=
        if newCategory ≠ oldCategory then { meta2 with category := newCategory } else meta2
      let categoryIndex' :=
        if newCategory ≠ oldCategory then
          migrateBucket m.category_index oldCategory newCategory identifier
        else m.category_index
      (true,
        { m with
          disk := disk'
          project_index := projectIndex'
          category_index := categoryIndex'
          index := dset m.index identifier { fields := item, meta := meta3 } })
    else (true, { m with disk := disk' })

/-- `LongTermMemory._remove_from_indexes`: drop the id from the main index
and from its project/category buckets, deleting a bucket that becomes
empty — the cleanup `update` does not perform. -/
def removeFromIndexes (m : LTM) (identifier : String) : LTM :=
  match dlookup m.index identifier with
  | none => m
  | some it =>
    let dropFrom := fun (idx : List (PyVal × List String)) (key : PyVal) =>
      match dlookup idx key with
      | some ids =>
        if identifier ∈ ids then
          let ids' := ids.erase identifier
          if ids'.isEmpty then ddel idx key else dset idx key ids'
        else idx
      | none => idx
    { m with
      index := ddel m.index identifier
      project_index := dropFrom m.project_index it.meta.project
      category_index := dropFrom m.category_index it.meta.category }

/-- The item as the Python dict `_matches_query` walks: the user fields with
the `_meta` object appended. -/
def itemToPy (it : StoredItem) : PyVal :=
  .dict (it.fields ++
    [("_meta", .dict
      [("id", .str it.meta.id), ("created_at", .int it.meta.created_at),
       ("updated_at", .int it.meta.updated_at), ("project", it.meta.project),
       ("category", it.meta.category)])])

/-- Python `key.split(".")`: split on every dot, keeping empty parts. -/
def splitDot : List Char → List (List Char)
  | [] => [[]]
  | c :: rest =>
    let ps := splitDot rest
    if c = '.' then [] :: ps
    else
      match ps with
      | p :: ps' => (c :: p) :: ps'
      | [] => [[c]]

/-- The dotted-path walk of `_matches_query`: descend through nested dicts,
failing on a missing key or a non-dict. -/
def digPath (v : PyVal) : List String → Option PyVal
  | [] => some v
  | p :: rest =>
    match v with
    | .dict fs =>
      match dlookup fs p with
      | some v' => digPath v' rest
      | none => none
    | _ => none

/-- A minimal `json.dumps` for the modelled values (default separators;
the `ensure_ascii` escaping of non-ASCII characters is elided). -/
def jsonDump : PyVal → String
  | .str s => "\"" ++ s.foldl (fun acc c =>
      acc ++ (if c = '"' then "\\\"" else if c = '\\' then "\\\\" else String.mk [c])) "" ++ "\""
  | .bool b => if b then "true" else "false"
  | .int n => toString n
  | .list xs => "[" ++ String.intercalate ", " (xs.attach.map (fun x => jsonDump x.1)) ++ "]"
  | .dict fs => "\x7b" ++ String.intercalate ", "
      (fs.attach.map (fun kv => "\"" ++ kv.1.1 ++ "\": " ++ jsonDump kv.1.2)) ++ "\x7d"
decreasing_by
  · have hx := List.sizeOf_lt_of_mem x.2
    simp only [PyVal.list.sizeOf_spec]
    omega
  · have hkv := List.sizeOf_lt_of_mem kv.2
    have h1 : sizeOf kv.1.2 < sizeOf kv.1 := by
      obtain ⟨k, v⟩ := kv.1
      simp only [Prod.mk.sizeOf_spec]
      omega
    simp only [PyVal.dict.sizeOf_spec]
    omega

/-- `created_at < value` in `_matches_query`'s date filters; a non-numeric
bound raises a `TypeError` in Python and is outside the modelled
behaviour. -/
def pyLtInt (a : Int) (v : PyVal) : Bool :=
  match v with
  | .int n => a < n
  | _ => false

/-- `created_at > value`, likewise. -/
def pyGtInt (a : Int) (v : PyVal) : Bool :=
  match v with
  | .int n => n < a
  | _ => false

/-- Whether the item dict carries a `_meta` entry. -/
def hasMeta (item : PyVal) : Bool :=
  match item with
  | .dict fs => dhas fs "_meta"
  | _ => false

/-- `item["_meta"].get("created_at", 0)` (the `_meta` of a stored item is
always a dict in the model). -/
def metaCreatedAt (item : PyVal) : Int :=
  match item with
  | .dict fs =>
    match dlookup fs "_meta" with
    | some (.dict mfs) =>
      match dlookup mfs "created_at" with
      | some (.int t) => t
      | _ => 0
    | _ => 0
  | _ => 0

/-- The fallthrough clause of `_matches_query`: the key must be present in
the item dict with an equal value. -/
def simpleKeyPass (item : PyVal) (k : String) (v : PyVal) : Bool :=
  match item with
  | .dict fs => dlookup fs k = some v
  | _ => false

/-- `LongTermMemory._matches_query`: every query entry must pass; dotted
keys walk nested dicts, `_text` with a string value does a case-folded
substring search over the serialized item, `_date_after` / `_date_before`
(in the presence of `_meta`) bound `created_at`, and any other entry falls
through to the simple present-and-equal check. -/
def matchesQuery (item : PyVal) (query : List (String × PyVal)) : Bool :=
  query.all fun kv =>
    let k := kv.1
    let v := kv.2
    if k.data.contains '.' then
      digPath item ((splitDot k.data).map String.mk) = some v
    else if k = "_text" then
      match v with
      | .str s => containsSub (pyLower (jsonDump item)) (pyLower s)
      | _ => simpleKeyPass item k v
    else if k = "_date_after" then
      if hasMeta item then !pyLtInt (metaCreatedAt item) v else simpleKeyPass item k v
    else if k = "_date_before" then
      if hasMeta item then !pyGtInt (metaCreatedAt item) v else simpleKeyPass item k v
    else
      simpleKeyPass item k v

/-- A search hit `{"id", "item", "created_at"}`. -/
structure SearchHit where
  id : String
  item : StoredItem
  created_at : Int
deriving Repr, DecidableEq

/-- The collection loop of `search`: walk the candidate ids, keep those
whose indexed item matches the remaining query, and stop as soon as `limit`
results are collected (the check runs after each append). -/
def collectHits (m : LTM) (q : List (String × PyVal)) (limit : Nat) :
    List String → List SearchHit → List SearchHit
  | [], acc => acc
  | identifier :: rest, acc =>
    match dlookup m.index identifier with
    | some it =>
      if matchesQuery (itemToPy it) q then
        let acc' := acc ++ [{ id := identifier, item := it, created_at := it.meta.created_at }]
        if limit ≤ acc'.length then acc' else collectHits m q limit rest acc'
      else collectHits m q limit rest acc
    | none => collectHits m q limit rest acc

/-- The disk-scan loop of the no-index branch of `search` (directory listing
order is the order of the `disk` map). -/
def collectHitsDisk (m : LTM) (q : List (String × PyVal)) (limit : Nat)
    (projectFilter categoryFilter : Option PyVal) :
    List (String × StoredItem) → List SearchHit → List SearchHit
  | [], acc => acc
  | (identifier, it) :: rest, acc =>
    if (match projectFilter with
        | some pf => pyTruthy pf && !(it.meta.project = pf)
        | none => false) then
      collectHitsDisk m q limit projectFilter categoryFilter rest acc
    else if (match categoryFilter with
        | some cf => pyTruthy cf && !(it.meta.category = cf)
        | none => false) then
      collectHitsDisk m q limit projectFilter categoryFilter rest acc
    else if matchesQuery (itemToPy it) q then
      let acc' := acc ++ [{ id := identifier, item := it, created_at := it.meta.created_at }]
      if limit ≤ acc'.length then acc'
      else collectHitsDisk m q limit projectFilter categoryFilter rest acc'
    else collectHitsDisk m q limit projectFilter categoryFilter rest acc

/-- `LongTermMemory.search`: pop `project` and `category` out of the
caller's query dict (a genuine mutation of the argument — the returned
second component is the query dict as the caller observes it after the
call), pick the candidate ids from the matching secondary index bucket (or
all of them), collect matching items up to `limit`, and sort by creation
time, newest first (`List.mergeSort` is stable, like Python's sort). -/
def search (m : LTM) (query : List (String × PyVal)) (limit : Nat) :
    List SearchHit × List (String × PyVal) :=
  let projectFilter := dlookup query "project"
  let q1 := ddel query "project"
  let categoryFilter := dlookup q1 "category"
  let q2 := ddel q1 "category"
  let hits :=
    if m.index_in_memory then
      let ids :=
        match projectFilter with
        | some pf =>
          if pyTruthy pf then (dlookup m.project_index pf).getD []
          else
            match categoryFilter with
            | some cf =>
              if pyTruthy cf then (dlookup m.category_index cf).getD [] else dkeys m.index
            | none => dkeys m.index
        | none =>
          match categoryFilter with
          | some cf =>
            if pyTruthy cf then (dlookup m.category_index cf).getD [] else dkeys m.index
          | none => dkeys m.index
      collectHits m q2 limit ids []
    else
      collectHitsDisk m q2 limit projectFilter categoryFilter m.disk []
  ((hits.mergeSort (fun a b => b.created_at ≤ a.created_at)), q2)

end LTM

end DevAssist

/-! # Theorems -/

namespace DevAssist

section DictLemmas

variable {κ : Type} {α : Type} [DecidableEq κ]

theorem dlookup_eq_none_iff (l : List (κ × α)) (k : κ) :
    dlookup l k = none ↔ k ∉ dkeys l := by
  induction l with
  | nil => simp [dlookup, dkeys]
  | cons p rest ih =>
    obtain ⟨k', v⟩ := p
    by_cases h : k' = k
    · subst h; simp [dlookup, dkeys]
    · simp [dlookup, dkeys, h, ih, dkeys]
      tauto

theorem dhas_iff_mem (l : List (κ × α)) (k : κ) : dhas l k = true ↔ k ∈ dkeys l := by
  rw [dhas, Option.isSome_iff_ne_none, ne_eq, dlookup_eq_none_iff, not_not]

theorem ddel_cons (p : κ × α) (rest : List (κ × α)) (k : κ) :
    ddel (p :: rest) k = if p.1 = k then ddel rest k else p :: ddel rest k := by
  simp only [ddel, List.filter_cons]
  by_cases h : p.1 = k <;> simp [h]

theorem dlookup_cons (k' : κ) (v : α) (rest : List (κ × α)) (k : κ) :
    dlookup ((k', v) :: rest) k = if k' = k then some v else dlookup rest k := rfl

theorem dlookup_mem {l : List (κ × α)} {k : κ} {v : α} (h : dlookup l k = some v) :
    (k, v) ∈ l := by
  induction l with
  | nil => simp [dlookup] at h
  | cons p rest ih =>
    obtain ⟨k', v'⟩ := p
    rw [dlookup_cons] at h
    by_cases hk : k' = k
    · rw [if_pos hk] at h
      obtain rfl := Option.some.inj h
      simp [hk]
    · rw [if_neg hk] at h
      exact List.mem_cons_of_mem _ (ih h)

theorem dlookup_of_mem_nodup {l : List (κ × α)} {k : κ} {v : α}
    (hnd : (dkeys l).Nodup) (hm : (k, v) ∈ l) : dlookup l k = some v := by
  induction l with
  | nil => simp at hm
  | cons p rest ih =>
    obtain ⟨k', v'⟩ := p
    simp only [dkeys, List.map_cons, List.nodup_cons] at hnd
    rcases List.mem_cons.mp hm with h | h
    · injection h with hk hv
      rw [dlookup_cons, if_pos hk.symm, hv]
    · have hk : k' ≠ k := by
        intro he
        exact hnd.1 (he ▸ (List.mem_map.mpr ⟨(k, v), h, rfl⟩))
      rw [dlookup_cons, if_neg hk]
      exact ih hnd.2 h

theorem dlookup_ddel_self (l : List (κ × α)) (k : κ) : dlookup (ddel l k) k = none := by
  induction l with
  | nil => rfl
  | cons p rest ih =>
    obtain ⟨k', v⟩ := p
    rw [ddel_cons]
    by_cases h : k' = k
    · rw [if_pos h]; exact ih
    · rw [if_neg h, dlookup_cons, if_neg h]; exact ih

theorem dlookup_ddel_ne (l : List (κ × α)) {k k' : κ} (h : k ≠ k') :
    dlookup (ddel l k') k = dlookup l k := by
  induction l with
  | nil => rfl
  | cons p rest ih =>
    obtain ⟨k'', v⟩ := p
    rw [ddel_cons]
    by_cases h2 : k'' = k'
    · rw [if_pos h2, ih, dlookup_cons]
      have hk : ¬ k'' = k := fun he => h ((he ▸ h2 : k = k'))
      rw [if_neg hk]
    · rw [if_neg h2, dlookup_cons, dlookup_cons]
      by_cases h3 : k'' = k
      · rw [if_pos h3, if_pos h3]
      · rw [if_neg h3, if_neg h3, ih]

theorem mem_of_mem_ddel {l : List (κ × α)} {k : κ} {p : κ × α} (h : p ∈ ddel l k) :
    p ∈ l :=
  List.mem_of_mem_filter h

theorem mem_dkeys_ddel {l : List (κ × α)} {k k' : κ} (h : k' ∈ dkeys (ddel l k)) :
    k' ∈ dkeys l := by
  simp only [dkeys, List.mem_map] at h ⊢
  obtain ⟨p, hp, he⟩ := h
  exact ⟨p, mem_of_mem_ddel hp, he⟩

theorem dkeys_ddel_nodup {l : List (κ × α)} (h : (dkeys l).Nodup) (k : κ) :
    (dkeys (ddel l k)).Nodup := by
  induction l with
  | nil => exact h
  | cons p rest ih =>
    obtain ⟨k', v⟩ := p
    simp only [dkeys, List.map_cons, List.nodup_cons] at h
    rw [ddel_cons]
    by_cases h2 : k' = k
    · rw [if_pos h2]; exact ih h.2
    · rw [if_neg h2]
      simp only [dkeys, List.map_cons, List.nodup_cons]
      exact ⟨fun hc => h.1 (mem_dkeys_ddel hc), ih h.2⟩

theorem length_ddel_le (l : List (κ × α)) (k : κ) : (ddel l k).length ≤ l.length :=
  List.length_filter_le _ _

theorem ddel_of_not_mem {l : List (κ × α)} {k : κ} (h : k ∉ dkeys l) : ddel l k = l := by
  induction l with
  | nil => rfl
  | cons p rest ih =>
    obtain ⟨k', v⟩ := p
    simp only [dkeys, List.map_cons, List.mem_cons, not_or] at h
    rw [ddel_cons, if_neg (show ¬ ((k', v).1 = k) from fun he => h.1 he.symm),
      ih (by exact h.2)]

theorem length_ddel_of_mem {l : List (κ × α)} {k : κ} (hnd : (dkeys l).Nodup)
    (hm : k ∈ dkeys l) : (ddel l k).length + 1 = l.length := by
  induction l with
  | nil => simp [dkeys] at hm
  | cons p rest ih =>
    obtain ⟨k', v⟩ := p
    simp only [dkeys, List.map_cons, List.nodup_cons] at hnd
    rw [ddel_cons]
    by_cases h2 : k' = k
    · rw [if_pos h2]
      rw [ddel_of_not_mem (show k ∉ dkeys rest from h2 ▸ hnd.1)]
      simp
    · have hm' : k ∈ dkeys rest := by
        simp only [dkeys, List.map_cons, List.mem_cons] at hm
        rcases hm with h | h
        · exact absurd h.symm h2
        · exact h
      rw [if_neg h2]
      have := ih hnd.2 hm'
      simp only [List.length_cons]
      omega

theorem dset_fresh {l : List (κ × α)} {k : κ} (h : dhas l k = false) (v : α) :
    dset l k v = l ++ [(k, v)] := by
  simp [dset, h]

theorem dhas_false_lookup {l : List (κ × α)} {k : κ} (h : dhas l k = false) :
    dlookup l k = none := by
  rw [dhas] at h
  cases hl : dlookup l k with
  | none => rfl
  | some v => rw [hl] at h; simp at h

theorem dhas_true_of_lookup {l : List (κ × α)} {k : κ} {v : α}
    (h : dlookup l k = some v) : dhas l k = true := by
  rw [dhas, h]
  rfl

theorem dlookup_append (l1 l2 : List (κ × α)) (k : κ) :
    dlookup (l1 ++ l2) k =
      match dlookup l1 k with
      | some v => some v
      | none => dlookup l2 k := by
  induction l1 with
  | nil => rfl
  | cons p rest ih =>
    obtain ⟨k', v⟩ := p
    by_cases h : k' = k
    · simp [dlookup_cons, h]
    · simp only [List.cons_append, dlookup_cons, if_neg h]
      exact ih

theorem dlookup_dset_self (l : List (κ × α)) (k : κ) (v : α) :
    dlookup (dset l k v) k = some v := by
  by_cases h : dhas l k = true
  · rw [dset, if_pos h]
    rw [dhas] at h
    induction l with
    | nil => simp [dlookup] at h
    | cons p rest ih =>
      obtain ⟨k', v'⟩ := p
      by_cases h2 : k' = k
      · simp [dlookup_cons, h2]
      · rw [dlookup_cons, if_neg h2] at h
        simp only [List.map_cons]
        rw [if_neg (by simpa using h2)]
        rw [dlookup_cons, if_neg h2]
        exact ih h
  · rw [dset, if_neg h, dlookup_append]
    rw [dhas_false_lookup (by simpa using h)]
    simp [dlookup_cons]

theorem dlookup_dset_ne (l : List (κ × α)) {k k' : κ} (h : k ≠ k') (v : α) :
    dlookup (dset l k' v) k = dlookup l k := by
  have hmap : ∀ l0 : List (κ × α),
      dlookup (l0.map (fun p => if p.1 = k' then (k', v) else p)) k = dlookup l0 k := by
    intro l0
    induction l0 with
    | nil => rfl
    | cons p rest ih =>
      obtain ⟨k'', v''⟩ := p
      simp only [List.map_cons]
      by_cases h2 : k'' = k'
      · rw [if_pos (by simpa using h2)]
        rw [dlookup_cons, dlookup_cons, if_neg (fun he => h he.symm),
          if_neg (fun he => h (he.symm.trans h2))]
        exact ih
      · rw [if_neg (by simpa using h2)]
        rw [dlookup_cons, dlookup_cons]
        by_cases h3 : k'' = k
        · rw [if_pos h3, if_pos h3]
        · rw [if_neg h3, if_neg h3]
          exact ih
  by_cases hh : dhas l k' = true
  · rw [dset, if_pos hh]
    exact hmap l
  · rw [dset, if_neg hh, dlookup_append]
    cases hl : dlookup l k with
    | some v' => rfl
    | none =>
      rw [dlookup_cons, if_neg (fun he => h he.symm)]
      rfl

end DictLemmas

section STMLemmas

variable {α : Type}

open STM

theorem heapMinAux_mem (x : Int × String) (xs : List (Int × String)) :
    heapMinAux x xs ∈ x :: xs := by
  induction xs generalizing x with
  | nil => simp [heapMinAux]
  | cons y ys ih =>
    simp only [heapMinAux]
    by_cases hc : pairLe x y = true
    · simp only [hc, if_true]
      rcases List.mem_cons.mp (ih x) with h1 | h1
      · rw [h1]; exact List.mem_cons_self _ _
      · exact List.mem_cons_of_mem _ (List.mem_cons_of_mem _ h1)
    · simp only [hc, if_false]
      rcases List.mem_cons.mp (ih y) with h1 | h1
      · rw [h1]; exact List.mem_cons_of_mem _ (List.mem_cons_self _ _)
      · exact List.mem_cons_of_mem _ (List.mem_cons_of_mem _ h1)

theorem heapPop_eq_none {q : List (Int × String)} (h : heapPop q = none) : q = [] := by
  cases q with
  | nil => rfl
  | cons x xs => simp [heapPop, heapMin] at h

theorem heapPop_eq_some {q : List (Int × String)} {m : Int × String}
    {q' : List (Int × String)} (h : heapPop q = some (m, q')) :
    m ∈ q ∧ q' = q.erase m := by
  cases q with
  | nil => simp [heapPop, heapMin] at h
  | cons x xs =>
    simp only [heapPop, heapMin, Option.some.injEq, Prod.mk.injEq] at h
    exact ⟨h.1 ▸ heapMinAux_mem x xs, h.2.symm.trans (by rw [h.1])⟩

theorem delete_snd_items (s : STM α) (id : String) :
    (s.delete id).2.items = if dhas s.items id then ddel s.items id else s.items := by
  unfold STM.delete
  by_cases h : dhas s.items id <;> simp [h]

theorem delete_snd_creation (s : STM α) (id : String) :
    (s.delete id).2.creation_times =
      if dhas s.items id then ddel s.creation_times id else s.creation_times := by
  unfold STM.delete
  by_cases h : dhas s.items id <;> simp [h]

theorem delete_snd_queue (s : STM α) (id : String) :
    (s.delete id).2.lru_queue =
      if dhas s.items id then
        s.lru_queue.filter (fun p => dhas (ddel s.items id) p.2)
      else s.lru_queue := by
  unfold STM.delete
  by_cases h : dhas s.items id <;> simp [h]

theorem delete_capacity (s : STM α) (id : String) : (s.delete id).2.capacity = s.capacity := by
  unfold STM.delete
  by_cases h : dhas s.items id <;> simp [h]

theorem delete_ttl (s : STM α) (id : String) : (s.delete id).2.ttl = s.ttl := by
  unfold STM.delete
  by_cases h : dhas s.items id <;> simp [h]

theorem delete_lookup_self (s : STM α) (id : String) :
    dlookup (s.delete id).2.items id = none := by
  rw [delete_snd_items]
  by_cases h : dhas s.items id
  · rw [if_pos h]; exact dlookup_ddel_self _ _
  · rw [if_neg h]
    exact dhas_false_lookup (Bool.of_not_eq_true h)

theorem delete_lookup_ne (s : STM α) {id id' : String} (h : id' ≠ id) :
    dlookup (s.delete id).2.items id' = dlookup s.items id' := by
  rw [delete_snd_items]
  by_cases hh : dhas s.items id
  · rw [if_pos hh]; exact dlookup_ddel_ne _ h
  · rw [if_neg hh]

theorem delete_creation_lookup_ne (s : STM α) {id id' : String} (h : id' ≠ id) :
    dlookup (s.delete id).2.creation_times id' = dlookup s.creation_times id' := by
  rw [delete_snd_creation]
  by_cases hh : dhas s.items id
  · rw [if_pos hh]; exact dlookup_ddel_ne _ h
  · rw [if_neg hh]

theorem delete_keys_subset (s : STM α) (id : String) {k : String}
    (h : k ∈ dkeys (s.delete id).2.items) : k ∈ dkeys s.items := by
  rw [delete_snd_items] at h
  by_cases hh : dhas s.items id
  · rw [if_pos hh] at h; exact mem_dkeys_ddel h
  · rwa [if_neg hh] at h

theorem delete_creation_mem_subset (s : STM α) (id : String) {p : String × Int}
    (h : p ∈ (s.delete id).2.creation_times) : p ∈ s.creation_times := by
  rw [delete_snd_creation] at h
  by_cases hh : dhas s.items id
  · rw [if_pos hh] at h; exact mem_of_mem_ddel h
  · rwa [if_neg hh] at h

theorem delete_len_le (s : STM α) (id : String) :
    (s.delete id).2.items.length ≤ s.items.length := by
  rw [delete_snd_items]
  by_cases hh : dhas s.items id
  · rw [if_pos hh]; exact length_ddel_le _ _
  · rw [if_neg hh]

theorem delete_nodup (s : STM α) (id : String) (h : (dkeys s.items).Nodup) :
    (dkeys (s.delete id).2.items).Nodup := by
  rw [delete_snd_items]
  by_cases hh : dhas s.items id
  · rw [if_pos hh]; exact dkeys_ddel_nodup h _
  · rwa [if_neg hh]

theorem delete_wf (s : STM α) (id : String) (h : wf s) : wf (s.delete id).2 := by
  obtain ⟨hnd, hcov⟩ := h
  refine ⟨delete_nodup s id hnd, ?_⟩
  intro k hk
  have hk0 : k ∈ dkeys s.items := delete_keys_subset s id hk
  have hc := hcov k hk0
  rw [delete_snd_queue]
  by_cases hh : dhas s.items id
  · rw [if_pos hh]
    simp only [List.mem_map] at hc ⊢
    obtain ⟨p, hp, he⟩ := hc
    refine ⟨p, List.mem_filter.mpr ⟨hp, ?_⟩, he⟩
    rw [delete_snd_items, if_pos hh] at hk
    rw [he]
    simp [dhas_iff_mem, hk]
  · rwa [if_neg hh]

theorem delete_items_access_indep (s : STM α) (accs : List (String × Int)) (id : String) :
    ({ s with access_times := accs } : STM α).delete id |>.2.items = (s.delete id).2.items := by
  rw [delete_snd_items, delete_snd_items]

theorem foldDel_wf (ids : List String) :
    ∀ s : STM α, wf s → wf (ids.foldl (fun st i => (st.delete i).2) s) := by
  induction ids with
  | nil => intro s h; exact h
  | cons i rest ih => intro s h; exact ih _ (delete_wf s i h)

theorem foldDel_capacity (ids : List String) :
    ∀ s : STM α, (ids.foldl (fun st i => (st.delete i).2) s).capacity = s.capacity := by
  induction ids with
  | nil => intro s; rfl
  | cons i rest ih => intro s; rw [List.foldl_cons, ih, delete_capacity]

theorem foldDel_ttl (ids : List String) :
    ∀ s : STM α, (ids.foldl (fun st i => (st.delete i).2) s).ttl = s.ttl := by
  induction ids with
  | nil => intro s; rfl
  | cons i rest ih => intro s; rw [List.foldl_cons, ih, delete_ttl]

theorem foldDel_len_le (ids : List String) :
    ∀ s : STM α, (ids.foldl (fun st i => (st.delete i).2) s).items.length ≤ s.items.length := by
  induction ids with
  | nil => intro s; exact le_rfl
  | cons i rest ih =>
    intro s
    exact le_trans (ih _) (delete_len_le s i)

theorem foldDel_keys_subset (ids : List String) :
    ∀ (s : STM α) (k : String), k ∈ dkeys (ids.foldl (fun st i => (st.delete i).2) s).items →
      k ∈ dkeys s.items := by
  induction ids with
  | nil => intro s k h; exact h
  | cons i rest ih =>
    intro s k h
    exact delete_keys_subset s i (ih _ k h)

theorem foldDel_creation_mem_subset (ids : List String) :
    ∀ (s : STM α) (p : String × Int),
      p ∈ (ids.foldl (fun st i => (st.delete i).2) s).creation_times →
      p ∈ s.creation_times := by
  induction ids with
  | nil => intro s p h; exact h
  | cons i rest ih =>
    intro s p h
    exact delete_creation_mem_subset s i (ih _ p h)

theorem foldDel_lookup_not_mem (ids : List String) :
    ∀ (s : STM α) (id : String), id ∉ ids →
      dlookup (ids.foldl (fun st i => (st.delete i).2) s).items id = dlookup s.items id := by
  induction ids with
  | nil => intro s id _; rfl
  | cons i rest ih =>
    intro s id h
    simp only [List.mem_cons, not_or] at h
    rw [List.foldl_cons, ih _ _ h.2, delete_lookup_ne s h.1]

theorem foldDel_lookup_none (ids : List String) :
    ∀ (s : STM α) (id : String), dlookup s.items id = none →
      dlookup (ids.foldl (fun st i => (st.delete i).2) s).items id = none := by
  induction ids with
  | nil => intro s id h; exact h
  | cons i rest ih =>
    intro s id h
    refine ih _ _ ?_
    by_cases he : id = i
    · subst he; exact delete_lookup_self s id
    · rw [delete_lookup_ne s he, h]

theorem foldDel_lookup_none_of_mem (ids : List String) :
    ∀ (s : STM α) (id : String), id ∈ ids →
      dlookup (ids.foldl (fun st i => (st.delete i).2) s).items id = none := by
  induction ids with
  | nil => intro s id h; simp at h
  | cons i rest ih =>
    intro s id h
    rcases List.mem_cons.mp h with he | hm
    · subst he
      exact foldDel_lookup_none rest _ id (delete_lookup_self s id)
    · exact ih _ id hm

theorem foldDel_no_creation_entry (ids : List String) :
    ∀ (s : STM α) (id : String), id ∈ ids → dhas s.items id = true →
      ∀ t', (id, t') ∉ (ids.foldl (fun st i => (st.delete i).2) s).creation_times := by
  induction ids with
  | nil => intro s id h; simp at h
  | cons i rest ih =>
    intro s id h hhas t' hc
    by_cases he : id = i
    · subst he
      have h1 : dlookup (s.delete id).2.creation_times id = none := by
        rw [delete_snd_creation, if_pos hhas]
        exact dlookup_ddel_self _ _
      have h2 := foldDel_creation_mem_subset rest _ _ hc
      rw [dlookup_eq_none_iff] at h1
      exact h1 (List.mem_map.mpr ⟨(id, t'), h2, rfl⟩)
    · rcases List.mem_cons.mp h with he2 | hm
      · exact he he2
      · have hhas' : dhas (s.delete i).2.items id = true := by
          rw [dhas, delete_lookup_ne s he, ← dhas]
          exact hhas
        exact ih _ id hm hhas' t' hc

theorem foldDel_items_only (ids : List String) :
    ∀ s1 s2 : STM α, s1.items = s2.items →
      (ids.foldl (fun st i => (st.delete i).2) s1).items =
        (ids.foldl (fun st i => (st.delete i).2) s2).items := by
  induction ids with
  | nil => intro s1 s2 h; exact h
  | cons i rest ih =>
    intro s1 s2 h
    refine ih _ _ ?_
    rw [delete_snd_items, delete_snd_items, h]

theorem prune_wf (s : STM α) (now : Int) (h : wf s) : wf (s.pruneExpired now) :=
  foldDel_wf _ s h

theorem prune_capacity (s : STM α) (now : Int) :
    (s.pruneExpired now).capacity = s.capacity :=
  foldDel_capacity _ s

theorem prune_ttl (s : STM α) (now : Int) : (s.pruneExpired now).ttl = s.ttl :=
  foldDel_ttl _ s

theorem prune_len_le (s : STM α) (now : Int) :
    (s.pruneExpired now).items.length ≤ s.items.length :=
  foldDel_len_le _ s

theorem prune_keys_subset (s : STM α) (now : Int) {k : String}
    (h : k ∈ dkeys (s.pruneExpired now).items) : k ∈ dkeys s.items :=
  foldDel_keys_subset _ s k h

theorem prune_lookup_unexpired (s : STM α) (now : Int) {identifier : String} {t0 : Int}
    (hnodup : (dkeys s.creation_times).Nodup)
    (hc : dlookup s.creation_times identifier = some t0)
    (hlive : ¬ now - t0 > s.ttl) :
    dlookup (s.pruneExpired now).items identifier = dlookup s.items identifier := by
  unfold STM.pruneExpired
  refine foldDel_lookup_not_mem _ s identifier ?_
  intro hm
  simp only [List.mem_map] at hm
  obtain ⟨p, hp, he⟩ := hm
  have hp2 := List.mem_filter.mp hp
  have hl : dlookup s.creation_times p.1 = some p.2 :=
    dlookup_of_mem_nodup hnodup (Prod.mk.eta.symm ▸ hp2.1)
  rw [he, hc] at hl
  have ht : t0 = p.2 := Option.some.inj hl
  have hcond := hp2.2
  simp only [decide_eq_true_eq] at hcond
  rw [← ht] at hcond
  exact hlive hcond

theorem prune_lookup_expired (s : STM α) (now : Int) {identifier : String} {t0 : Int}
    (hc : dlookup s.creation_times identifier = some t0)
    (hexp : now - t0 > s.ttl) :
    dlookup (s.pruneExpired now).items identifier = none := by
  unfold STM.pruneExpired
  refine foldDel_lookup_none_of_mem _ s identifier ?_
  refine List.mem_map.mpr ⟨(identifier, t0), ?_, rfl⟩
  refine List.mem_filter.mpr ⟨dlookup_mem hc, ?_⟩
  simp only [decide_eq_true_eq]
  exact hexp

theorem prune_complete (s : STM α) (now : Int)
    (halign : ∀ k ∈ dkeys s.creation_times, dhas s.items k = true) :
    ∀ p ∈ (s.pruneExpired now).creation_times, now - p.2 ≤ s.ttl := by
  intro p hp
  by_contra hexp
  push_neg at hexp
  have hp0 : p ∈ s.creation_times := foldDel_creation_mem_subset _ s p hp
  have hmem : p.1 ∈ ((s.creation_times.filter
      (fun q => decide (now - q.2 > s.ttl))).map Prod.fst) := by
    refine List.mem_map.mpr ⟨p, List.mem_filter.mpr ⟨hp0, ?_⟩, rfl⟩
    simp only [decide_eq_true_eq]
    exact hexp
  have hhas : dhas s.items p.1 = true :=
    halign p.1 (List.mem_map.mpr ⟨p, hp0, rfl⟩)
  have := foldDel_no_creation_entry _ s p.1 hmem hhas p.2
  exact this (by simpa using hp)

theorem prune_items_access_indep (s : STM α) (now : Int) (accs : List (String × Int)) :
    (STM.pruneExpired { s with access_times := accs } now).items =
      (s.pruneExpired now).items := by
  unfold STM.pruneExpired
  exact foldDel_items_only _ _ _ rfl

theorem evictLoop_facts :
    ∀ (fuel : Nat) (s : STM α), s.lru_queue.length < fuel → wf s → s.items ≠ [] →
      (evictLoop fuel s).items.length + 1 = s.items.length ∧
      (∀ k ∈ dkeys (evictLoop fuel s).items, k ∈ dkeys s.items) ∧
      wf (evictLoop fuel s) ∧
      (evictLoop fuel s).capacity = s.capacity ∧ (evictLoop fuel s).ttl = s.ttl := by
  intro fuel
  induction fuel with
  | zero => intro s h; omega
  | succ fuel ih =>
    intro s hlen hwf hne
    obtain ⟨hnd, hcov⟩ := hwf
    cases hp : heapPop s.lru_queue with
    | none =>
      exfalso
      have hq : s.lru_queue = [] := heapPop_eq_none hp
      obtain ⟨p, hpmem⟩ := List.exists_mem_of_ne_nil s.items hne
      have := hcov p.1 (List.mem_map.mpr ⟨p, hpmem, rfl⟩)
      rw [hq] at this
      simp at this
    | some mq =>
      obtain ⟨m, q'⟩ := mq
      obtain ⟨hmem, hq'⟩ := heapPop_eq_some hp
      have hqlen : q'.length < fuel := by
        rw [hq', List.length_erase_of_mem hmem]
        have : 0 < s.lru_queue.length := List.length_pos.mpr
          (by intro hnil; rw [hnil] at hmem; exact List.not_mem_nil m hmem)
        omega
      by_cases hd : dhas ({ s with lru_queue := q' } : STM α).items m.2 = true
      · have hres : evictLoop (fuel + 1) s =
            (({ s with lru_queue := q' } : STM α).delete m.2).2 := by
          simp only [evictLoop, hp, hd, if_true]
        have hmk : m.2 ∈ dkeys s.items := (dhas_iff_mem _ _).mp hd
        rw [hres]
        refine ⟨?_, ?_, ?_, ?_, ?_⟩
        · rw [delete_snd_items, if_pos hd]
          exact length_ddel_of_mem hnd hmk
        · intro k hk
          exact delete_keys_subset ({ s with lru_queue := q' } : STM α) m.2 hk
        · constructor
          · exact delete_nodup _ _ hnd
          · intro k hk
            have hkn : k ≠ m.2 := by
              intro he
              have h0 := delete_lookup_self ({ s with lru_queue := q' } : STM α) m.2
              rw [dlookup_eq_none_iff] at h0
              exact h0 (he ▸ hk)
            have hk0 : k ∈ dkeys s.items :=
              delete_keys_subset ({ s with lru_queue := q' } : STM α) m.2 hk
            obtain ⟨p, hpq, he⟩ := List.mem_map.mp (hcov k hk0)
            have hpm : p ≠ m := fun he2 => hkn (by rw [← he, he2])
            have hpq' : p ∈ q' := hq' ▸ (List.mem_erase_of_ne hpm).mpr hpq
            rw [delete_snd_queue, if_pos hd]
            refine List.mem_map.mpr ⟨p, List.mem_filter.mpr ⟨hpq', ?_⟩, he⟩
            rw [delete_snd_items, if_pos hd] at hk
            rw [he]
            exact (dhas_iff_mem _ _).mpr hk
        · rw [delete_capacity]
        · rw [delete_ttl]
      · have hres : evictLoop (fuel + 1) s = evictLoop fuel { s with lru_queue := q' } := by
          simp only [evictLoop, hp]
          rw [if_neg hd]
        have hwf' : wf ({ s with lru_queue := q' } : STM α) := by
          refine ⟨hnd, ?_⟩
          intro k hk
          have h1 := hcov k hk
          simp only [List.mem_map] at h1 ⊢
          obtain ⟨p, hpq, he⟩ := h1
          have hpm : p ≠ m := by
            intro he2
            subst he2
            apply hd
            rw [dhas_iff_mem]
            exact he ▸ hk
          exact ⟨p, hq' ▸ (List.mem_erase_of_ne hpm).mpr hpq, he⟩
        obtain ⟨h1, h2, h3, h4, h5⟩ := ih { s with lru_queue := q' } hqlen hwf' hne
        exact hres ▸ ⟨h1, h2, h3, h4, h5⟩

theorem evictLRU_facts (s : STM α) (hwf : wf s) (hne : s.items ≠ []) :
    s.evictLRU.items.length + 1 = s.items.length ∧
    (∀ k ∈ dkeys s.evictLRU.items, k ∈ dkeys s.items) ∧
    wf s.evictLRU ∧ s.evictLRU.capacity = s.capacity ∧ s.evictLRU.ttl = s.ttl :=
  evictLoop_facts (s.lru_queue.length + 1) s (by omega) hwf hne

theorem add_facts (s : STM α) (id : String) (now : Int) (item : α)
    (hwf : wf s) (hcap : s.items.length ≤ s.capacity) (hfresh : id ∉ dkeys s.items) :
    (s.add id now item).items.length ≤ s.capacity ∧ wf (s.add id now item) ∧
    (∀ k ∈ dkeys (s.add id now item).items, k ∈ dkeys s.items ∨ k = id) ∧
    (s.add id now item).capacity = s.capacity ∧ (s.add id now item).ttl = s.ttl := by
  have h1wf := prune_wf s now hwf
  have h1len := prune_len_le s now
  have h1cap := prune_capacity s now
  have h1ttl := prune_ttl s now
  have hfresh1 : id ∉ dkeys (s.pruneExpired now).items :=
    fun h => hfresh (prune_keys_subset s now h)
  have hhas1 : dhas (s.pruneExpired now).items id = false := by
    by_cases hb : dhas (s.pruneExpired now).items id = true
    · exact absurd ((dhas_iff_mem _ _).mp hb) hfresh1
    · simpa using hb
  have hstep : s.add id now item =
      (let s2 : STM α := { s.pruneExpired now with
        items := (s.pruneExpired now).items ++ [(id, item)],
        access_times := dset (s.pruneExpired now).access_times id now,
        creation_times := dset (s.pruneExpired now).creation_times id now,
        lru_queue := (s.pruneExpired now).lru_queue ++ [(now, id)] }
      if s2.items.length > s2.capacity then s2.evictLRU else s2) := by
    simp only [STM.add]
    rw [dset_fresh hhas1]
  rw [hstep]
  set s2 : STM α := { s.pruneExpired now with
    items := (s.pruneExpired now).items ++ [(id, item)],
    access_times := dset (s.pruneExpired now).access_times id now,
    creation_times := dset (s.pruneExpired now).creation_times id now,
    lru_queue := (s.pruneExpired now).lru_queue ++ [(now, id)] } with hs2
  have h2keys : dkeys s2.items = dkeys (s.pruneExpired now).items ++ [id] := by
    simp [hs2, dkeys]
  have h2len : s2.items.length = (s.pruneExpired now).items.length + 1 := by
    simp [hs2]
  have h2cap : s2.capacity = s.capacity := h1cap
  have h2ttl : s2.ttl = s.ttl := h1ttl
  have h2wf : wf s2 := by
    constructor
    · rw [h2keys]
      refine List.nodup_append.mpr ⟨h1wf.1, List.nodup_singleton id, ?_⟩
      intro x hx hx2
      rw [List.mem_singleton] at hx2
      exact hfresh1 (hx2 ▸ hx)
    · intro k hk
      rw [h2keys] at hk
      rcases List.mem_append.mp hk with hk1 | hk1
      · obtain ⟨p, hp, he⟩ := List.mem_map.mp (h1wf.2 k hk1)
        refine List.mem_map.mpr ⟨p, ?_, he⟩
        show p ∈ s2.lru_queue
        rw [hs2]
        exact List.mem_append_left _ hp
      · rw [List.mem_singleton] at hk1
        refine List.mem_map.mpr ⟨(now, id), ?_, hk1.symm⟩
        show (now, id) ∈ s2.lru_queue
        rw [hs2]
        exact List.mem_append_right _ (List.mem_singleton_self _)
  have hkeys2sub : ∀ k ∈ dkeys s2.items, k ∈ dkeys s.items ∨ k = id := by
    intro k hk
    rw [h2keys] at hk
    rcases List.mem_append.mp hk with hk1 | hk1
    · exact Or.inl (prune_keys_subset s now hk1)
    · exact Or.inr (List.mem_singleton.mp hk1)
  by_cases hif : s2.items.length > s2.capacity
  · rw [if_pos hif]
    have hne : s2.items ≠ [] := by
      intro hnil
      rw [hnil] at h2len
      simp at h2len
    obtain ⟨he1, he2, he3, he4, he5⟩ := evictLRU_facts s2 h2wf hne
    refine ⟨?_, he3, ?_, he4.trans h2cap, he5.trans h2ttl⟩
    · omega
    · intro k hk
      exact hkeys2sub k (he2 k hk)
  · rw [if_neg hif]
    rw [gt_iff_lt, not_lt] at hif
    exact ⟨hif.trans_eq h2cap, h2wf, hkeys2sub, h2cap, h2ttl⟩

theorem traceAdds_aux :
    ∀ (ops : List (String × Int × α)) (s : STM α) (used : List String),
      wf s → s.items.length ≤ s.capacity → (∀ k ∈ dkeys s.items, k ∈ used) →
      (∀ op ∈ ops, op.1 ∉ used) → (ops.map Prod.fst).Nodup →
      ∀ st ∈ ops.scanl (fun s op => s.add op.1 op.2.1 op.2.2) s,
        st.items.length ≤ st.capacity ∧ st.capacity = s.capacity := by
  intro ops
  induction ops with
  | nil =>
    intro s used hwf hcap hsub hops hnd st hst
    rw [List.scanl_nil, List.mem_singleton] at hst
    subst hst
    exact ⟨hcap, rfl⟩
  | cons op rest ih =>
    intro s used hwf hcap hsub hops hnd st hst
    rw [List.scanl_cons] at hst
    rcases List.mem_cons.mp hst with he | hm
    · subst he
      exact ⟨hcap, rfl⟩
    · have hfresh : op.1 ∉ dkeys s.items :=
        fun h => (hops op (List.mem_cons_self _ _)) (hsub _ h)
      obtain ⟨ha1, ha2, ha3, ha4, ha5⟩ := add_facts s op.1 op.2.1 op.2.2 hwf hcap hfresh
      simp only [List.map_cons, List.nodup_cons] at hnd
      have hrec := ih (s.add op.1 op.2.1 op.2.2) (used ++ [op.1]) ha2
        (ha1.trans_eq ha4.symm)
        (by
          intro k hk
          rcases ha3 k hk with h | h
          · exact List.mem_append_left _ (hsub k h)
          · exact List.mem_append_right _ (List.mem_singleton.mpr h))
        (by
          intro op' hop' hin
          rcases List.mem_append.mp hin with h | h
          · exact hops op' (List.mem_cons_of_mem _ hop') h
          · exact hnd.1 (List.mem_singleton.mp h ▸ List.mem_map.mpr ⟨op', hop', rfl⟩))
        hnd.2 st hm
      exact ⟨hrec.1, hrec.2.trans ha4⟩

end STMLemmas

/-! ## C2: the capacity invariant -/

/-- C2: starting from a fresh store, after every `add` in any sequence of
adds (with distinct injected uuids) the number of live items is at most the
configured capacity; and whenever eviction runs on a well-formed non-empty
store, exactly one live entry is removed — stale heap entries naming
already-deleted ids are skipped and no id is ever resurrected (the surviving
ids are a subset of the previous live ids). -/
theorem stm_capacity_eviction_c2 {α : Type} (cap : Nat) (ttl : Int)
    (ops : List (String × Int × α)) (hids : (ops.map Prod.fst).Nodup) :
    (∀ st ∈ STM.traceAdds cap ttl ops, st.items.length ≤ cap) ∧
    (∀ s : STM α, STM.wf s → s.items ≠ [] →
      s.evictLRU.items.length + 1 = s.items.length ∧
      ∀ k ∈ dkeys s.evictLRU.items, k ∈ dkeys s.items) := by
  constructor
  · intro st hst
    have h := traceAdds_aux ops (STM.init cap ttl) []
      ⟨List.nodup_nil, by intro k hk; simp [STM.init, dkeys] at hk⟩
      (by simp [STM.init])
      (by intro k hk; simp [STM.init, dkeys] at hk)
      (by intro op _ h; simp at h)
      hids st hst
    exact h.1.trans_eq h.2
  · intro s hwf hne
    obtain ⟨h1, h2, _, _, _⟩ := evictLRU_facts s hwf hne
    exact ⟨h1, h2⟩

/-- Witness for C2: a two-add sequence over capacity 1 ends at one live
item, and eviction on a concrete one-item store removes exactly that one
entry. -/
theorem stm_capacity_eviction_c2_witness :
    ((((STM.init (α := Nat) 1 1000).add "a" 0 5).add "b" 1 6).items.length ≤ 1) ∧
    ((STM.evictLRU
        (⟨2, 50, [("x", 7)], [("x", 0)], [("x", 0)], [(0, "x")]⟩ : STM Nat)).items.length
      + 1 = 1) := by
  constructor
  · exact (stm_capacity_eviction_c2 (α := Nat) 1 1000 [("a", 0, 5), ("b", 1, 6)]
      (by decide)).1 _ (by decide)
  · have h := ((stm_capacity_eviction_c2 (α := Nat) 2 50 [] (by decide)).2
      ⟨2, 50, [("x", 7)], [("x", 0)], [("x", 0)], [(0, "x")]⟩
      (by constructor <;> decide) (by decide)).1
    simpa using h

/-! ## C3: the TTL invariant -/

/-- C3: an item created at `t0` (and still stored) is returned by `get` at
every time `now ≤ t0 + ttl` and reported absent at every `now > t0 + ttl`;
the answer is independent of the recorded access times (expiry is measured
from creation, not access); and the expiry sweep runs eagerly at the start
of the operation, so the state `get` leaves behind holds no entry older
than `ttl`. -/
theorem stm_ttl_c3 {α : Type} (s : STM α) (identifier : String) (t0 now : Int) (v : α)
    (hnodup : (dkeys s.creation_times).Nodup)
    (halign : ∀ k ∈ dkeys s.creation_times, dhas s.items k = true)
    (hc : dlookup s.creation_times identifier = some t0)
    (hi : dlookup s.items identifier = some v) :
    ((s.get identifier now).1 = if now ≤ t0 + s.ttl then some v else none) ∧
    (∀ accs : List (String × Int),
      ((STM.get { s with access_times := accs } identifier now).1 =
        (s.get identifier now).1)) ∧
    (∀ p ∈ (s.get identifier now).2.creation_times, now - p.2 ≤ s.ttl) := by
  have hfst : ∀ t : STM α, (t.get identifier now).1 =
      dlookup (t.pruneExpired now).items identifier := by
    intro t
    unfold STM.get
    cases h : dlookup (t.pruneExpired now).items identifier <;> simp [h]
  refine ⟨?_, ?_, ?_⟩
  · rw [hfst]
    by_cases hle : now ≤ t0 + s.ttl
    · rw [if_pos hle]
      rw [prune_lookup_unexpired s now hnodup hc (by omega)]
      exact hi
    · rw [if_neg hle]
      exact prune_lookup_expired s now hc (by omega)
  · intro accs
    rw [hfst, hfst]
    have := prune_items_access_indep s now accs
    rw [this]
  · intro p hp
    have hsnd : (s.get identifier now).2.creation_times =
        (s.pruneExpired now).creation_times := by
      unfold STM.get
      cases h : dlookup (s.pruneExpired now).items identifier <;> simp [h]
    rw [hsnd] at hp
    exact prune_complete s now halign p hp

/-- Witness for C3 on a concrete one-item store read inside and outside the
retention window. -/
theorem stm_ttl_c3_witness :
    ((STM.get (⟨10, 100, [("a", 5)], [("a", 0)], [("a", 0)], [(0, "a")]⟩ : STM Nat)
        "a" 50).1 = if (50 : Int) ≤ 0 + 100 then some 5 else none) ∧
    ((STM.get (⟨10, 100, [("a", 5)], [("a", 0)], [("a", 0)], [(0, "a")]⟩ : STM Nat)
        "a" 250).1 = if (250 : Int) ≤ 0 + 100 then some 5 else none) := by
  constructor
  · exact (stm_ttl_c3 (⟨10, 100, [("a", 5)], [("a", 0)], [("a", 0)], [(0, "a")]⟩ : STM Nat)
      "a" 0 50 5 (by decide) (by decide) (by decide) (by decide)).1
  · exact (stm_ttl_c3 (⟨10, 100, [("a", 5)], [("a", 0)], [("a", 0)], [(0, "a")]⟩ : STM Nat)
      "a" 0 250 5 (by decide) (by decide) (by decide) (by decide)).1

/-! ## C9: index migration on update -/

theorem migrateBucket_facts (idx : List (PyVal × List String)) (oldKey newKey : PyVal)
    (identifier : String) (hne : newKey ≠ oldKey) (pids : List String)
    (hidx : dlookup idx oldKey = some pids) :
    dlookup (LTM.migrateBucket idx oldKey newKey identifier) oldKey =
      some (if identifier ∈ pids then pids.erase identifier else pids) ∧
    identifier ∈ (dlookup (LTM.migrateBucket idx oldKey newKey identifier) newKey).getD [] := by
  have hred : LTM.migrateBucket idx oldKey newKey identifier =
      dset (if identifier ∈ pids then dset idx oldKey (pids.erase identifier) else idx)
        newKey
        ((dlookup (if identifier ∈ pids then dset idx oldKey (pids.erase identifier) else idx)
            newKey).getD [] ++ [identifier]) := by
    unfold LTM.migrateBucket
    rw [hidx]
  by_cases hm : identifier ∈ pids
  · rw [hred, if_pos hm]
    constructor
    · rw [dlookup_dset_ne _ (fun he => hne he.symm), dlookup_dset_self, if_pos hm]
    · rw [dlookup_dset_self]
      simp
  · rw [hred, if_neg hm]
    constructor
    · rw [dlookup_dset_ne _ (fun he => hne he.symm), hidx, if_neg hm]
    · rw [dlookup_dset_self]
      simp

/-- C9 (counterexample to "removing any index bucket left empty"): on a
one-item store, changing the item's project from `p1` to `p2` (and its
category from `c1` to `c2`) leaves the emptied buckets in place as empty
lists — `update` only calls `list.remove`, never the bucket cleanup that
`_remove_from_indexes` performs (shown for contrast: it deletes the
emptied bucket key). -/
theorem ltm_update_keeps_empty_bucket_c9 :
    (let it0 : StoredItem := ⟨[], ⟨"id1", 1, 1, .str "p1", .str "c1"⟩⟩
     let m0 : LTM := ⟨true, 1000, [("id1", it0)], [(.str "c1", ["id1"])],
       [(.str "p1", ["id1"])], [("id1", it0)]⟩
     let r := (LTM.update m0 "id1" [("project", .str "p2"), ("category", .str "c2")] 5).2
     dlookup r.project_index (.str "p1") = some [] ∧
       dlookup r.category_index (.str "c1") = some [] ∧
       some ([] : List String) ≠ (none : Option (List String)) ∧
       dlookup (LTM.removeFromIndexes m0 "id1").project_index (.str "p1") = none) := by
  decide

/-- C9 (amended): on an update with in-memory indexing whose item carries a
changed project (resp. category), the stored `created_at` is preserved,
`updated_at` is refreshed to the current clock, the id is removed from the
old index bucket and appended to the new one — but an emptied old bucket is
retained as an empty list rather than removed (only
`_remove_from_indexes`, which `update` never calls, deletes empty
buckets). -/
theorem ltm_update_migrates_c9 (m : LTM) (identifier : String)
    (item : List (String × PyVal)) (now : Int) (ex : StoredItem)
    (hflag : m.index_in_memory = true)
    (hidx : dlookup m.index identifier = some ex) :
    (LTM.update m identifier item now).1 = true ∧
    (∀ st, dlookup (LTM.update m identifier item now).2.index identifier = some st →
      st.meta.created_at = ex.meta.created_at ∧ st.meta.updated_at = now ∧
      st.fields = item) ∧
    (∀ pNew pids, dlookup item "project" = some pNew → pNew ≠ ex.meta.project →
      dlookup m.project_index ex.meta.project = some pids → pids.Nodup →
      identifier ∉
        ((dlookup (LTM.update m identifier item now).2.project_index
          ex.meta.project).getD []) ∧
      identifier ∈
        ((dlookup (LTM.update m identifier item now).2.project_index pNew).getD []) ∧
      dhas (LTM.update m identifier item now).2.project_index ex.meta.project = true) ∧
    (∀ cNew cids, dlookup item "category" = some cNew → cNew ≠ ex.meta.category →
      dlookup m.category_index ex.meta.category = some cids → cids.Nodup →
      identifier ∉
        ((dlookup (LTM.update m identifier item now).2.category_index
          ex.meta.category).getD []) ∧
      identifier ∈
        ((dlookup (LTM.update m identifier item now).2.category_index cNew).getD []) ∧
      dhas (LTM.update m identifier item now).2.category_index ex.meta.category = true) := by
  have hget : m.get identifier = some ex := by
    unfold LTM.get
    rw [if_pos ⟨hflag, dhas_true_of_lookup hidx⟩]
    exact hidx
  refine ⟨?_, ?_, ?_, ?_⟩
  · simp [LTM.update, hget, hflag]
  · intro st hst
    simp only [LTM.update, hget, hflag, if_true] at hst
    rw [dlookup_dset_self] at hst
    obtain rfl := Option.some.inj hst
    by_cases hpq : (dlookup item "project").getD ex.meta.project ≠ ex.meta.project <;>
      by_cases hcq : (dlookup item "category").getD ex.meta.category ≠ ex.meta.category <;>
      simp [hpq, hcq]
  · intro pNew pids hp hpne hpidx hnd
    have hpq : (dlookup item "project").getD ex.meta.project ≠ ex.meta.project := by
      rw [hp]
      exact hpne
    have hproj : (LTM.update m identifier item now).2.project_index =
        LTM.migrateBucket m.project_index ex.meta.project
          ((dlookup item "project").getD ex.meta.project) identifier := by
      simp [LTM.update, hget, hflag, hpq]
    obtain ⟨hold, hnew⟩ := migrateBucket_facts m.project_index ex.meta.project
      ((dlookup item "project").getD ex.meta.project) identifier
      (by rw [hp]; exact hpne) pids hpidx
    refine ⟨?_, ?_, ?_⟩
    · rw [hproj, hold]
      by_cases hm : identifier ∈ pids
      · rw [if_pos hm]
        simpa using hnd.not_mem_erase
      · rw [if_neg hm]
        simpa using hm
    · rw [hproj]
      rw [hp] at hnew ⊢
      exact hnew
    · rw [dhas, hproj, hold]
      rfl
  · intro cNew cids hc hcne hcidx hnd
    have hcq : (dlookup item "category").getD ex.meta.category ≠ ex.meta.category := by
      rw [hc]
      exact hcne
    have hcat : (LTM.update m identifier item now).2.category_index =
        LTM.migrateBucket m.category_index ex.meta.category
          ((dlookup item "category").getD ex.meta.category) identifier := by
      simp [LTM.update, hget, hflag, hcq]
    obtain ⟨hold, hnew⟩ := migrateBucket_facts m.category_index ex.meta.category
      ((dlookup item "category").getD ex.meta.category) identifier
      (by rw [hc]; exact hcne) cids hcidx
    refine ⟨?_, ?_, ?_⟩
    · rw [hcat, hold]
      by_cases hm : identifier ∈ cids
      · rw [if_pos hm]
        simpa using hnd.not_mem_erase
      · rw [if_neg hm]
        simpa using hm
    · rw [hcat]
      rw [hc] at hnew ⊢
      exact hnew
    · rw [dhas, hcat, hold]
      rfl

/-- Witness for the amended C9 on the one-item store with both labels
changed. -/
theorem ltm_update_migrates_c9_witness :
    ((LTM.update ⟨true, 1000, [("id1", ⟨[], ⟨"id1", 1, 1, .str "p1", .str "c1"⟩⟩)],
        [(.str "c1", ["id1"])], [(.str "p1", ["id1"])],
        [("id1", ⟨[], ⟨"id1", 1, 1, .str "p1", .str "c1"⟩⟩)]⟩
      "id1" [("project", .str "p2"), ("category", .str "c2")] 5).1 = true) ∧
    ("id1" ∉ ((dlookup (LTM.update ⟨true, 1000,
        [("id1", ⟨[], ⟨"id1", 1, 1, .str "p1", .str "c1"⟩⟩)],
        [(.str "c1", ["id1"])], [(.str "p1", ["id1"])],
        [("id1", ⟨[], ⟨"id1", 1, 1, .str "p1", .str "c1"⟩⟩)]⟩
      "id1" [("project", .str "p2"), ("category", .str "c2")] 5).2.project_index
        (.str "p1")).getD [])) ∧
    ("id1" ∈ ((dlookup (LTM.update ⟨true, 1000,
        [("id1", ⟨[], ⟨"id1", 1, 1, .str "p1", .str "c1"⟩⟩)],
        [(.str "c1", ["id1"])], [(.str "p1", ["id1"])],
        [("id1", ⟨[], ⟨"id1", 1, 1, .str "p1", .str "c1"⟩⟩)]⟩
      "id1" [("project", .str "p2"), ("category", .str "c2")] 5).2.project_index
        (.str "p2")).getD [])) := by
  have h := ltm_update_migrates_c9
    ⟨true, 1000, [("id1", ⟨[], ⟨"id1", 1, 1, .str "p1", .str "c1"⟩⟩)],
      [(.str "c1", ["id1"])], [(.str "p1", ["id1"])],
      [("id1", ⟨[], ⟨"id1", 1, 1, .str "p1", .str "c1"⟩⟩)]⟩
    "id1" [("project", .str "p2"), ("category", .str "c2")] 5
    ⟨[], ⟨"id1", 1, 1, .str "p1", .str "c1"⟩⟩ rfl (by decide)
  have h3 := h.2.2.1 (.str "p2") ["id1"] (by decide) (by decide) (by decide) (by decide)
  exact ⟨h.1, h3.1, h3.2.1⟩

/-! ## C4: the LRU read-refresh scenario -/

/-- C4: with capacity 3, after inserting A, B, C, reading A (which does
refresh A's recorded access time to 3) and inserting D, the store evicts A,
not B: the eviction heap is only ever pushed to at insertion time, so the
refresh `get` performs — which `get`'s own docstring says prevents
eviction — never reaches the eviction order.  The claim (and the spec's LRU
property) say B is evicted; the code evicts A. -/
theorem stm_lru_refresh_ineffective_c4 :
    (let s3 := (((STM.init (α := Nat) 3 1000000).add "A" 0 10).add "B" 1 11).add "C" 2 12
     let s4 := (s3.get "A" 3).2
     let s5 := s4.add "D" 4 13
     dlookup s4.access_times "A" = some 3 ∧
       dlookup s5.items "A" = none ∧
       dlookup s5.items "B" = some 11 ∧
       dlookup s5.items "C" = some 12 ∧
       dlookup s5.items "D" = some 13) := by
  decide

/-! ## C5: the final-answer scan -/

/-- C5: `_generate_final_answer` never returns a success payload, because
its guard at `react_agent.py:174` reads `"status" == "success"` — a
comparison of the two string literals, which is always false — so the scan
is dead code and the generic completion message is returned for every
observation list, including one holding exactly the successful tool result
the claim describes.  The claim (and the function's own comment) describe a
scan that returns the first successful result's payload. -/
theorem react_final_answer_scan_dead_c5 :
    (∀ observations : List PyVal, generateFinalAnswer observations = genericCompletionMsg) ∧
    generateFinalAnswer
        [.dict [("status", .str "success"),
                ("result", .dict [("status", .str "success"), ("result", .str "4")])]] =
      genericCompletionMsg ∧
    genericCompletionMsg ≠ "4" := by
  have hobs : ∀ o : PyVal, observationAnswer o = none := by
    intro o
    cases o with
    | dict fs =>
      cases h : dlookup fs "result" with
      | none => simp [observationAnswer, h]
      | some result =>
        cases result with
        | dict rfs => simp [observationAnswer, h]
        | str s => simp [observationAnswer, h]
        | bool b => simp [observationAnswer, h]
        | int n => simp [observationAnswer, h]
        | list xs => simp [observationAnswer, h]
    | str s => rfl
    | bool b => rfl
    | int n => rfl
    | list xs => rfl
  have hall : ∀ observations : List PyVal,
      generateFinalAnswer observations = genericCompletionMsg := by
    intro obs
    unfold generateFinalAnswer
    rw [List.findSome?_eq_none_iff.mpr (fun o _ => hobs o)]
  exact ⟨hall, hall _, by decide⟩

/-! ## C7: the complexity gate -/

/-- C7: the complexity score is a pure function of the task text — weighted
regex-pattern hit counts plus 1/10 per word, 1/20 per special character and
3/2 per distinct tool whose keywords hit, capped at 10 — and in `auto` mode
(any threshold, default 7.0) the agent runs single-agent exactly when the
score is strictly below the threshold and multi-agent exactly when it is at
or above it. -/
theorem hybrid_complexity_gate_c7 (threshold : ℚ) (task : String) :
    assessComplexity task ≤ 10 ∧
    (hybridChoosePath threshold "auto" task = .single ↔
      assessComplexity task < threshold) ∧
    (hybridChoosePath threshold "auto" task = .multi ↔
      ¬ assessComplexity task < threshold) := by
  refine ⟨?_, ?_, ?_⟩
  · unfold assessComplexity
    exact min_le_left _ _
  · unfold hybridChoosePath
    rw [if_pos rfl]
    by_cases h : assessComplexity task < threshold <;> simp [h]
  · unfold hybridChoosePath
    rw [if_pos rfl]
    by_cases h : assessComplexity task < threshold <;> simp [h]

/-! ## C8: tool failures become error Results -/

theorem wrapToolResult_status (name : String) (r : Except String PyVal) :
    dlookup (wrapToolResult name r) "status" ≠ none := by
  cases r with
  | error e => simp [wrapToolResult, errObs, dlookup]
  | ok result =>
    cases result with
    | dict fs =>
      simp only [wrapToolResult]
      by_cases h : dhas fs "status" = true
      · rw [if_pos h]
        rw [dhas] at h
        intro hc
        rw [hc] at h
        simp at h
      · rw [if_neg h]
        simp [dlookup]
    | str s => simp [wrapToolResult, dlookup]
    | bool b => simp [wrapToolResult, dlookup]
    | int n => simp [wrapToolResult, dlookup]
    | list xs => simp [wrapToolResult, dlookup]

/-- C8: at both dispatch boundaries every outcome is a Result dict with a
`status` key — no exception escapes: a raise inside a tool's execution
becomes `{"status": "error", ...}`, and an unknown tool name that cannot be
resolved or loaded yields an error Result rather than an exception. -/
theorem tool_errors_wrapped_c8 (tc : ToolCollectionState)
    (tools : List (String × PyTool)) (loadTool : String → Option PyTool)
    (name : String) (kwargs input : List (String × PyVal)) :
    (dlookup (executeTool tc name kwargs) "status" ≠ none) ∧
    (dlookup (executeAction tools loadTool name input) "status" ≠ none) ∧
    (getTool tc name = none →
      executeTool tc name kwargs = errObs ("Tool not found: " ++ name)) ∧
    (∀ tool e, getTool tc name = some tool → tool.validate = none →
      tool.run kwargs = .error e →
      executeTool tc name kwargs = errObs ("Error executing tool " ++ name ++ ": " ++ e)) ∧
    (dlookup tools name = none → loadTool name = none →
      executeAction tools loadTool name input = errObs ("Unknown action or tool: " ++ name)) ∧
    (∀ tool e, dlookup tools name = some tool → tool.run input = .error e →
      executeAction tools loadTool name input =
        errObs ("Error executing tool " ++ name ++ ": " ++ e)) := by
  refine ⟨?_, ?_, ?_, ?_, ?_, ?_⟩
  · cases hg : getTool tc name with
    | none => simp [executeTool, hg, errObs, dlookup]
    | some tool =>
      cases hv : (match tool.validate with
                  | some v => v kwargs
                  | none => Except.ok true) with
      | error e => simp [executeTool, hg, hv, errObs, dlookup]
      | ok b =>
        cases b with
        | false => simp [executeTool, hg, hv, errObs, dlookup]
        | true =>
          simpa [executeTool, hg, hv] using wrapToolResult_status name (tool.run kwargs)
  · cases hl : dlookup tools name with
    | some tool =>
      simpa [executeAction, hl] using wrapToolResult_status name (tool.run input)
    | none =>
      cases hld : loadTool name with
      | some tool =>
        simpa [executeAction, hl, hld] using wrapToolResult_status name (tool.run input)
      | none => simp [executeAction, hl, hld, errObs, dlookup]
  · intro hg
    unfold executeTool
    rw [hg]
  · intro tool e hg hv hr
    simp [executeTool, hg, hv, hr, wrapToolResult]
  · intro hl hld
    unfold executeAction
    rw [hl, hld]
  · intro tool e hl hr
    simp [executeAction, hl, hr, wrapToolResult]

/-- Witness for C8: the empty collection cannot resolve `frob` and reports
the not-found error Result; a tool whose execution raises yields the
error-wrapped Result at the agent boundary. -/
theorem tool_errors_wrapped_c8_witness :
    executeTool ⟨[], [], fun _ => none⟩ "frob" [] = errObs ("Tool not found: " ++ "frob") ∧
    executeAction [("boom", ⟨none, fun _ => .error "kaboom"⟩)] (fun _ => none) "boom" [] =
      errObs ("Error executing tool " ++ "boom" ++ ": " ++ "kaboom") :=
  ⟨(tool_errors_wrapped_c8 ⟨[], [], fun _ => none⟩ [] (fun _ => none) "frob" [] []).2.2.1 rfl,
   (tool_errors_wrapped_c8 ⟨[], [], fun _ => none⟩
      [("boom", ⟨none, fun _ => .error "kaboom"⟩)] (fun _ => none) "boom" [] []).2.2.2.2.2
      ⟨none, fun _ => .error "kaboom"⟩ "kaboom" rfl rfl⟩

/-! ## C1: the iteration cap -/

/-- One unfolding of the loop under the default `ReactAgent` hooks: below
the cap and with fuel left, the pass appends one thought/action/observation
and either breaks (when `current_iteration ≥ max_iterations - 1`) or
continues at `current_iteration + 1`. -/
theorem loopGo_react_default (N : Int) :
    ∀ (fuel : Nat) (ci : Int) (ctx : AgentContext), ci < N → (N - 1 - ci).toNat < fuel →
      (loopGo reactHooks N fuel ci ctx).1 = N - 1 ∧
      ((loopGo reactHooks N fuel ci ctx).2.thoughts.length : Int) =
        ctx.thoughts.length + (N - ci) := by
  intro fuel
  induction fuel with
  | zero => intro ci ctx h1 h2; omega
  | succ fuel ih =>
    intro ci ctx h1 h2
    by_cases hci : N - 1 ≤ ci
    · have hterm : reactShouldTerminate ci N = true := by
        simp [reactShouldTerminate]
        omega
      have hN : N - ci = 1 := by omega
      simp only [loopGo, if_pos h1, reactHooks, reactDecideAction, hterm, if_true]
      refine ⟨by omega, ?_⟩
      simp only [List.length_append, List.length_cons, List.length_nil]
      push_cast
      omega
    · have hterm : reactShouldTerminate ci N = false := by
        simp [reactShouldTerminate]
        omega
      simp only [loopGo, if_pos h1, reactHooks, reactDecideAction, hterm, if_false]
      refine ⟨(ih (ci + 1) _ (by omega) (by omega)).1,
        Eq.trans ((ih (ci + 1) _ (by omega) (by omega)).2) ?_⟩
      simp only [List.length_append, List.length_cons, List.length_nil]
      push_cast
      omega

/-- C1 (counterexample to the claim as stated): with `max_iterations = 0`
the loop body never runs (zero iterations are performed), yet the returned
`iterations` field is `current_iteration + 1 = 1`, which exceeds the cap
`N = 0`. -/
theorem react_iterations_cap_counterexample_c1 :
    (reactExecute 0 "sample task").context.thoughts.length = 0 ∧
    (reactExecute 0 "sample task").iterations = 1 ∧
    ¬ ((reactExecute 0 "sample task").iterations ≤ 0) := by
  decide

/-- C1 (amended to `N ≥ 1`): for every task and every `max_iterations = N`
with `N ≥ 1`, `ReactAgent.execute` with the default termination predicate
performs exactly N loop iterations (one thought per iteration) and returns
`iterations = N ≤ N`. -/
theorem react_loop_cap_c1 (N : Int) (task : String) (h : 1 ≤ N) :
    ((reactExecute N task).context.thoughts.length : Int) = N ∧
    (reactExecute N task).iterations = N ∧
    (reactExecute N task).iterations ≤ N := by
  have hrun := loopGo_react_default N (N.toNat + 1) 0
    { task := task, thoughts := [], actions := [], observations := [] }
    (by omega) (by omega)
  have hfst : (reactExecute N task).iterations =
      (loopGo reactHooks N (N.toNat + 1) 0
        { task := task, thoughts := [], actions := [], observations := [] }).1 + 1 := rfl
  have hsnd : (reactExecute N task).context =
      (loopGo reactHooks N (N.toNat + 1) 0
        { task := task, thoughts := [], actions := [], observations := [] }).2 := rfl
  refine ⟨?_, ?_, ?_⟩
  · rw [hsnd, hrun.2]
    simp
  · rw [hfst, hrun.1]
    omega
  · rw [hfst, hrun.1]
    omega

/-- Witness for the amended C1 at `N = 3`. -/
theorem react_loop_cap_c1_witness :
    ((reactExecute 3 "sample task").context.thoughts.length : Int) = 3 ∧
    (reactExecute 3 "sample task").iterations = 3 ∧
    (reactExecute 3 "sample task").iterations ≤ 3 :=
  react_loop_cap_c1 3 "sample task" (by norm_num)

/-! ## C6: the task router -/

/-- C6 (counterexample to "carrying the original task text"): the fallback
dummy action carries the lower-cased task text — `_decide_action` lower-cases
the task on entry and interpolates that — so for the unmatched task `ZZZ`
the carried text is `zzz`, not the original `ZZZ`. -/
theorem router_fallback_lowercases_c6 :
    decideAction ["calculator", "search"] "ZZZ" =
      ("dummy_action", [("query", .str "Placeholder action for zzz")]) ∧
    "Placeholder action for zzz" ≠ "Placeholder action for ZZZ" ∧
    ¬ ("ZZZ".data.IsInfix "Placeholder action for zzz".data) := by
  refine ⟨by decide, by decide, by decide⟩

/-- C6 (amended): with the calculator and search tools loaded,
`"calculate 2+2"` routes to `("calculator", {"expression": "2+2"})` and
`"search for foo"` to `("search", {"query": "foo"})`; a task matching no
rule yields the fallback dummy action carrying the case-normalized
(lower-cased) task text; and routing is a pure function of the
case-insensitively normalized task text. -/
theorem router_rules_c6 (tools : List String) (task1 task2 : String)
    (hcalc : "calculator" ∈ tools) (hsearch : "search" ∈ tools)
    (hlower : pyLower task1 = pyLower task2) :
    decideAction tools "calculate 2+2" = ("calculator", [("expression", .str "2+2")]) ∧
    decideAction tools "search for foo" = ("search", [("query", .str "foo")]) ∧
    (∀ task, routeMatches tools (pyLower task) = none →
      decideAction tools task =
        ("dummy_action",
         [("query", .str ("Placeholder action for " ++ String.mk (pyLower task)))])) ∧
    decideAction tools task1 = decideAction tools task2 := by
  refine ⟨?_, ?_, ?_, ?_⟩
  · have hg : reGroup calcPat (pyLower "calculate 2+2") = some "2+2".data := by decide
    have hs : String.mk (pyStripList "2+2".data) = "2+2" := by decide
    simp [decideAction, decideActionCore, routeMatches, tryCalc, hg, hs, hcalc]
  · have hg0 : reGroup calcPat (pyLower "search for foo") = none := by decide
    have hg1 : reGroup
        [RE.lit "search".data, RE.opt [RE.plus isPyWS, RE.lit "for".data],
          RE.plus isPyWS, RE.grpPlus isDotNoNL]
        (pyLower "search for foo") = some "foo".data := by decide
    simp only [decideAction, decideActionCore, routeMatches, tryCalc, trySearch, searchPats, hg0]
    simp [List.findSome?_cons, hg1, hsearch]
  · intro task h
    simp [decideAction, decideActionCore, h]
  · show decideActionCore tools (pyLower task1) = decideActionCore tools (pyLower task2)
    rw [hlower]

/-- Witness for the amended C6 with both tools loaded and the concrete
unmatched task `qqq` (routing `QQQ` and `qqq` identically). -/
theorem router_rules_c6_witness :
    decideAction ["calculator", "search"] "calculate 2+2" =
      ("calculator", [("expression", .str "2+2")]) ∧
    decideAction ["calculator", "search"] "qqq" =
      ("dummy_action",
       [("query", .str ("Placeholder action for " ++ String.mk (pyLower "qqq")))]) ∧
    decideAction ["calculator", "search"] "QQQ" = decideAction ["calculator", "search"] "qqq" := by
  have h := router_rules_c6 ["calculator", "search"] "QQQ" "qqq"
    (by decide) (by decide) (by decide)
  exact ⟨h.1, h.2.2.1 "qqq" (by decide), h.2.2.2⟩

/-! ## C10: the query-mutating search -/

/-- C10: `LongTermMemory.search` pops `project` and `category` out of the
caller's query dict in place — after the call those keys are gone from the
caller's dictionary while every other key still maps to its old value. -/
theorem ltm_search_pops_filters_c10 (m : LTM) (query : List (String × PyVal)) (limit : Nat) :
    dlookup (LTM.search m query limit).2 "project" = none ∧
    dlookup (LTM.search m query limit).2 "category" = none ∧
    (∀ k, k ≠ "project" → k ≠ "category" →
      dlookup (LTM.search m query limit).2 k = dlookup query k) := by
  have h2 : (LTM.search m query limit).2 = ddel (ddel query "project") "category" := rfl
  refine ⟨?_, ?_, ?_⟩
  · rw [h2, dlookup_ddel_ne _ (by decide), dlookup_ddel_self]
  · rw [h2, dlookup_ddel_self]
  · intro k h1 hk2
    rw [h2, dlookup_ddel_ne _ hk2, dlookup_ddel_ne _ h1]

/-- Witness for C10 on a concrete store and query. -/
theorem ltm_search_pops_filters_c10_witness :
    dlookup (LTM.search ⟨true, 1000, [], [], [], []⟩
      [("project", .str "p"), ("x", .str "1")] 10).2 "project" = none ∧
    dlookup (LTM.search ⟨true, 1000, [], [], [], []⟩
      [("project", .str "p"), ("x", .str "1")] 10).2 "x" =
      dlookup [("project", PyVal.str "p"), ("x", PyVal.str "1")] "x" :=
  ⟨(ltm_search_pops_filters_c10 ⟨true, 1000, [], [], [], []⟩
      [("project", .str "p"), ("x", .str "1")] 10).1,
   (ltm_search_pops_filters_c10 ⟨true, 1000, [], [], [], []⟩
      [("project", .str "p"), ("x", .str "1")] 10).2.2 "x" (by decide) (by decide)⟩

end DevAssist
